import Mathlib

/-!
Verification of the `nixos-investigation` dependency-graph visualiser
(`src/main.rs`) against its natural-language specification.

The Rust program is shallowly embedded below:
* strings are `List Char` (Rust `str` operations that work on full
  characters are char-faithful; the one byte-indexed operation,
  `str::split_at`, is modelled byte-exactly via `Char.utf8Size`);
* `Vec<Package>` is `List Package`, arena positions are `Nat`;
* `f32` is modelled by `F32`: exact rationals plus the IEEE special
  values `nan` and `inf` that actually arise in this program (from
  `0.0 / 0.0` and `x / 0.0`), with Rust's `f32::min` / `f32::max`
  NaN-ignoring semantics; rounding of finite values is abstracted to
  exact rational arithmetic;
* panicking operations (`unwrap`, `split_at` out of bounds) are
  modelled with `Option` / `Except`;
* the recursive parser `process_lines` takes an explicit fuel
  parameter so that it is structurally total; running out of fuel
  yields a distinguished error, and every theorem quantifies over the
  fuel (so it covers the real, non-fuel-limited execution).
-/

/-! ## Generic list helpers -/

/-- Replace the element at index `i` by `f` of it; out-of-range indices
leave the list unchanged (the Rust source only ever indexes in bounds). -/
def modifyIdx (l : List α) (i : Nat) (f : α → α) : List α :=
  match l, i with
  | [], _ => []
  | x :: xs, 0 => f x :: xs
  | x :: xs, n + 1 => x :: modifyIdx xs n f

/-- Insertion of a `Nat` into an already ascending list. -/
def insertSorted (n : Nat) : List Nat → List Nat
  | [] => [n]
  | m :: ms => if n ≤ m then n :: m :: ms else m :: insertSorted n ms

/-- Ascending insertion sort on `Nat` lists.  Models Rust's
`Vec::sort()` (extensionally: both produce the unique ascending,
multiplicity-preserving ordering of the input). -/
def sortNat (l : List Nat) : List Nat := l.foldr insertSorted []

/-! ## Decimal rendering and parsing of naturals

Models Rust's `Display for usize` (decimal digits) and the parse-back
direction used to state the CSV round-trip claim. -/

/-- Character for a single decimal digit. -/
def digitChar (n : Nat) : Char := Char.ofNat (48 + n)

/-- Decimal rendering of a natural number, most significant digit first. -/
def natToChars (n : Nat) : List Char :=
  if h : n < 10 then [digitChar n]
  else natToChars (n / 10) ++ [digitChar (n % 10)]
  decreasing_by exact Nat.div_lt_self (by omega) (by omega)

/-- Numeric value of a decimal digit character. -/
def digitVal (c : Char) : Nat := c.toNat - 48

/-- Parse a list of decimal digit characters back into a natural number. -/
def parseNat (l : List Char) : Nat := l.foldl (fun acc c => acc * 10 + digitVal c) 0

/-! ## Comma joining and parse-back (for the CSV dependency column) -/

/-- Join pieces with a single comma between them (Rust `Vec::join(",")`). -/
def joinComma (pieces : List (List Char)) : List Char :=
  List.intercalate [','] pieces

/-- Parse the quoted dependency column back into a list of naturals: an
empty column is the empty list, otherwise split on commas and parse each
piece as a decimal natural. -/
def parseDeps (l : List Char) : List Nat :=
  if l = [] then [] else (l.splitOn ',').map parseNat

/-! ## Chunking (Rust slice `chunks`) -/

/-- Partition a list into consecutive chunks of size `k` (the final chunk
may be shorter); `chunksOf k [] = []`, matching Rust's `chunks`.  The
program only ever calls this with `k = 20 > 0`. -/
def chunksOf (k : Nat) (l : List α) : List (List α) :=
  match l with
  | [] => []
  | x :: xs => (x :: xs.take (k - 1)) :: chunksOf k (xs.drop (k - 1))
  termination_by l.length
  decreasing_by simp only [List.length_cons]; have := List.length_drop (k - 1) xs; omega

/-! ## Model of the `f32` values arising in this program

Finite values are exact rationals (rounding is abstracted); `nan` and
`inf` are the IEEE special values produced by `0.0 / 0.0` and by
division of a positive finite value by `0.0`.  `F32.fmin` / `F32.fmax`
follow Rust's `f32::min` / `f32::max`: if one argument is NaN, the
other argument is returned. -/

inductive F32 where
  | nan : F32
  | inf : F32
  | val : ℚ → F32
deriving DecidableEq

/-- Division (`a / b` on `f32`): `0.0 / 0.0` is NaN, a nonzero finite
numerator over `0.0` is infinite.  Operands other than finite values do
not occur in this program. -/
def F32.div : F32 → F32 → F32
  | .val a, .val b => if b = 0 then (if a = 0 then .nan else .inf) else .val (a / b)
  | _, _ => .nan

/-- Rust `f32::min`: if one of the arguments is NaN, the other is returned. -/
def F32.fmin : F32 → F32 → F32
  | .nan, y => y
  | .inf, .nan => .inf
  | .inf, .val b => .val b
  | .inf, .inf => .inf
  | .val a, .nan => .val a
  | .val a, .inf => .val a
  | .val a, .val b => .val (min a b)

/-- Rust `f32::max`: if one of the arguments is NaN, the other is returned. -/
def F32.fmax : F32 → F32 → F32
  | .nan, y => y
  | .inf, _ => .inf
  | .val a, .nan => .val a
  | .val a, .inf => .inf
  | .val a, .val b => .val (max a b)

/-- Multiplication; only finite operands occur at the one use site. -/
def F32.mul : F32 → F32 → F32
  | .val a, .val b => .val (a * b)
  | _, _ => .nan

/-- Addition; only finite operands occur at the one use site. -/
def F32.add : F32 → F32 → F32
  | .val a, .val b => .val (a + b)
  | _, _ => .nan

/-! ## Data model: `Package` and `PackageTree` (src/main.rs lines 13-67) -/

structure Package where
  level : Nat
  path : List Char
  size_bytes : Nat
  dependencies : List Nat
  used_by : List Nat
  short_name : List Char
  graph_size : F32
deriving DecidableEq

/-- Placeholder package used as the default for (never occurring)
out-of-bounds arena reads. -/
def dfltPackage : Package :=
  { level := 0, path := [], size_bytes := 0, dependencies := [], used_by := [],
    short_name := [], graph_size := .val 0 }

/-- Rust `Package::new(path)`: queries the size of the store path from
the external collaborator (modelled by the oracle `sz`) and creates a
fresh node with level 0, no edges, `graph_size` 0.5 and `short_name`
equal to the full path. -/
def Package.new (sz : List Char → Nat) (path : List Char) : Package :=
  { level := 0, path := path, size_bytes := sz path, dependencies := [],
    used_by := [], short_name := path, graph_size := .val (1/2) }

structure PackageTree where
  nodes : List Package
  by_level : List (List Nat)
deriving DecidableEq

/-- Rust `PackageTree::new(root)`. -/
def PackageTree.mk0 (root : Package) : PackageTree :=
  { nodes := [root], by_level := [] }

/-- Rust `PackageTree::add_package`: appends a node, returns its stable
arena position. -/
def PackageTree.addPackage (t : PackageTree) (pkg : Package) : Nat × PackageTree :=
  (t.nodes.length, { t with nodes := t.nodes ++ [pkg] })

/-- Level of the node at arena position `i`. -/
def PackageTree.levelAt (t : PackageTree) (i : Nat) : Nat :=
  (t.nodes.getD i dfltPackage).level

def addDepFn (depends_pos : Nat) : Package → Package :=
  fun pkg => { pkg with dependencies := pkg.dependencies ++ [depends_pos] }

def addUsedByFn (package_pos : Nat) : Package → Package :=
  fun pkg => { pkg with used_by := pkg.used_by ++ [package_pos] }

def setLevelFn (lv : Nat) : Package → Package :=
  fun pkg => { pkg with level := lv }

/-- Rust `PackageTree::register_dependency(package_pos, depends_pos)`:
appends `depends_pos` to the parent's `dependencies`, appends
`package_pos` to the child's `used_by`, then sets the child's level to
`1 +` the maximum level over all nodes currently in the child's
`used_by`.  (The Rust `.max().unwrap()` acts on a list that is nonempty
because `package_pos` was just pushed; on nonempty lists of naturals it
coincides with `foldl Nat.max 0`.) -/
def PackageTree.registerDependency (t : PackageTree) (package_pos depends_pos : Nat) :
    PackageTree :=
  let t1 : PackageTree :=
    { t with nodes := modifyIdx t.nodes package_pos (addDepFn depends_pos) }
  let t2 : PackageTree :=
    { t1 with nodes := modifyIdx t1.nodes depends_pos (addUsedByFn package_pos) }
  let maxParentLevel : Nat :=
    ((t2.nodes.getD depends_pos dfltPackage).used_by.map t2.levelAt).foldl Nat.max 0
  { t2 with nodes := modifyIdx t2.nodes depends_pos (setLevelFn (maxParentLevel + 1)) }

/-- Rust `PackageTree::find_path_pos`: position of the first node with
the given path; the Rust version `unwrap`s, so absence is modelled as
`none` (a fatal lookup-assertion failure). -/
def PackageTree.findPathPos (t : PackageTree) (path : List Char) : Option Nat :=
  t.nodes.findIdx? (fun pkg => pkg.path = path)

/-! ## The tree-text parser (src/main.rs lines 170-219, 332-353) -/

/-- Error kinds of the run: `unexpectedLine` and `badPath` are the two
`ParseError`s of the source, `lookupFailed` models the
`find_path_pos(..).unwrap()` assertion failure, `badRoot` the root-line
check in `main`, and `outOfFuel` is an artifact of the fuel-indexed
model only (the Rust recursion is not fuel-limited; theorems quantify
over the fuel). -/
inductive PErr where
  | unexpectedLine : PErr
  | badPath : PErr
  | lookupFailed : PErr
  | badRoot : PErr
  | outOfFuel : PErr
deriving DecidableEq

/-- Strip a branch marker (Rust
`line.strip_prefix("├").or_else(|| line.strip_prefix("└"))`). -/
def stripMarker (l : List Char) : Option (List Char) :=
  match l with
  | [] => none
  | c :: rest => if c = '├' ∨ c = '└' then some rest else none

/-- Drop trailing whitespace. -/
def trimEndWS (l : List Char) : List Char :=
  (l.reverse.dropWhile Char.isWhitespace).reverse

/-- Rust `str::trim` (the inputs reaching it are ASCII, where Lean's
`Char.isWhitespace` and Rust's Unicode `White_Space` agree). -/
def trimWS (l : List Char) : List Char :=
  trimEndWS (l.dropWhile Char.isWhitespace)

/-- The back-reference marker `"[...]"`. -/
def backrefSuffix : List Char := ['[', '.', '.', '.', ']']

/-- Strip one nested-continuation layer (Rust
`child_line.strip_prefix("│").or_else(|| child_line.strip_prefix(" "))`
followed by `trim_start_matches(" ")`, which removes *all* remaining
leading spaces). -/
def stripNest (l : List Char) : Option (List Char) :=
  match l with
  | [] => none
  | c :: rest => if c = '│' ∨ c = ' ' then some (rest.dropWhile (· = ' ')) else none

/-- Drain the longest run of lines carrying a nested-continuation
layer, stripping that layer from each (the inner `while let` loop of
`process_lines`); returns the drained, stripped lines and the rest. -/
def spanNest : List (List Char) → List (List Char) × List (List Char)
  | [] => ([], [])
  | l :: ls =>
    match stripNest l with
    | some l' =>
      let p := spanNest ls
      (l' :: p.1, p.2)
    | none => ([], l :: ls)

/-- Rust `process_lines(tree, parent_pos, lines)` with explicit fuel:
pops lines of the current parenting context, creating nodes and edges,
draining nested lines into a sub-queue parsed recursively. -/
def processLines (sz : List Char → Nat) :
    Nat → PackageTree → Nat → List (List Char) → Except PErr PackageTree
  | 0, _, _, _ => .error .outOfFuel
  | _ + 1, t, _, [] => .ok t
  | fuel + 1, t, parent_pos, line :: rest =>
    match stripMarker line with
    | none => .error .unexpectedLine
    | some s =>
      let object_path := s.dropWhile (· = '─')
      if object_path.head? = some '/' then
        if backrefSuffix.isSuffixOf object_path then
          let stripped := trimWS (object_path.take (object_path.length - 5))
          match t.findPathPos stripped with
          | none => .error .lookupFailed
          | some object_pos =>
            let t' := if object_pos = parent_pos then t
                      else t.registerDependency parent_pos object_pos
            processLines sz fuel t' parent_pos rest
        else
          let pr := t.addPackage (Package.new sz object_path)
          let t2 := pr.2.registerDependency parent_pos pr.1
          let sp := spanNest rest
          match processLines sz fuel t2 pr.1 sp.1 with
          | .error e => .error e
          | .ok t3 => processLines sz fuel t3 parent_pos sp.2
      else .error .badPath

/-- The tree construction of `main`: the first line of the tree text is
the root's path; the remaining lines are handed to `process_lines` with
the root (arena position 0) as parent. -/
def parseTree (sz : List Char → Nat) (fuel : Nat) (lines : List (List Char)) :
    Except PErr PackageTree :=
  match lines with
  | [] => .error .unexpectedLine
  | root_line :: rest =>
    if root_line.head? = some '/' then
      processLines sz fuel (PackageTree.mk0 (Package.new sz root_line)) 0 rest
    else .error .badRoot

/-! ## The annotation pass `calculate_graph_properties`
(src/main.rs lines 114-163) -/

/-- Byte length of `"/nix/store/eeeeeeeeeeeeeeeeeeeeeeeeeeeeeeee-"`
(all ASCII, so 11 + 32 + 1 = 44 bytes), the constant whose `.len()` the
source passes to `split_at`. -/
def hashPrefixByteLen : Nat := 44

/-- Initial value of `smallest_size_bytes` (Rust `usize::MAX`). -/
def USIZE_MAX : Nat := 2 ^ 64 - 1

/-- Rust `str::split_at(mid)`: splits at *byte* index `mid`; `none`
models the panic raised when `mid` is past the end of the string or not
on a character boundary. -/
def splitAtByte : List Char → Nat → Option (List Char × List Char)
  | l, 0 => some ([], l)
  | [], _ + 1 => none
  | c :: cs, n + 1 =>
    if c.utf8Size ≤ n + 1 then
      (splitAtByte cs (n + 1 - c.utf8Size)).map (fun p => (c :: p.1, p.2))
    else none

/-- The symbolic name of a path: what remains after splitting 44 bytes
off the front (`none` = panic). -/
def symbolicName (path : List Char) : Option (List Char) :=
  (splitAtByte path hashPrefixByteLen).map (·.2)

/-- The `graph_names` map, modelled as an association list with unique
keys.  `HashMap::into_iter` order is unspecified in Rust; the model
iterates in insertion order (every theorem below concerns runs in which
each arena position appears under exactly one key, where the order is
immaterial). -/
def gnContains (m : List (List Char × Nat)) (k : List Char) : Bool :=
  m.any (fun e => e.1 == k)

def gnGet (m : List (List Char × Nat)) (k : List Char) : Option Nat :=
  (m.find? (fun e => e.1 == k)).map (·.2)

def gnRemove (m : List (List Char × Nat)) (k : List Char) : List (List Char × Nat) :=
  m.filter (fun e => !(e.1 == k))

def gnInsert (m : List (List Char × Nat)) (k : List Char) (v : Nat) :
    List (List Char × Nat) :=
  if gnContains m k then m.map (fun e => if e.1 == k then (k, v) else e)
  else m ++ [(k, v)]

/-- The store-root `"/nix/store/"`. -/
def storeRoot : List Char := "/nix/store/".toList

/-- Rust `str::trim_start_matches(pat)`: repeatedly remove `pat` from
the front while it is a prefix (fuel-indexed with `l.length`, which is
ample since each round removes at least one character). -/
def trimStartAux : Nat → List Char → List Char → List Char
  | 0, _, l => l
  | fuel + 1, pat, l =>
    if !pat.isEmpty && pat.isPrefixOf l then trimStartAux fuel pat (l.drop pat.length)
    else l

def trimStartList (pat l : List Char) : List Char := trimStartAux l.length pat l

/-- State threaded through the first loop of
`calculate_graph_properties`. -/
structure Pass1State where
  graph_names : List (List Char × Nat)
  smallest_size_bytes : Nat
  largest_size_bytes : Nat
  largest_level : Nat
deriving DecidableEq

def pass1Init : Pass1State :=
  { graph_names := [], smallest_size_bytes := USIZE_MAX,
    largest_size_bytes := 0, largest_level := 0 }

/-- One iteration of the first loop: track min/max sizes and max level,
derive the symbolic name (`none` = `split_at` panic) and apply the
pairwise check-and-remove collision policy.  (`contains_key` followed by
`remove(..).unwrap()` in the source is the `gnGet` match here.) -/
def pass1Step (nodes : List Package) (st : Pass1State) (pos : Nat) (pkg : Package) :
    Option Pass1State :=
  let st1 : Pass1State :=
    { st with smallest_size_bytes := Nat.min st.smallest_size_bytes pkg.size_bytes,
              largest_size_bytes := Nat.max st.largest_size_bytes pkg.size_bytes,
              largest_level := Nat.max st.largest_level pkg.level }
  match symbolicName pkg.path with
  | none => none
  | some symbolic_name =>
    match gnGet st1.graph_names symbolic_name with
    | some other_pos =>
      let other_path := (nodes.getD other_pos dfltPackage).path
      let m1 := gnRemove st1.graph_names symbolic_name
      let m2 := gnInsert m1 (trimStartList storeRoot other_path) other_pos
      let m3 := gnInsert m2 (trimStartList storeRoot pkg.path) pos
      some { st1 with graph_names := m3 }
    | none =>
      some { st1 with graph_names := gnInsert st1.graph_names symbolic_name pos }

def pass1 (nodes : List Package) :
    List (Nat × Package) → Pass1State → Option Pass1State
  | [], st => some st
  | (pos, pkg) :: rest, st =>
    match pass1Step nodes st pos pkg with
    | none => none
    | some st' => pass1 nodes rest st'

/-- The normalized visual size written in the second loop:
`0.2 + 2.0 * ((size - smallest) as f32 / (largest - smallest) as f32).min(1.0).max(0.0)`
(subtractions are `usize`, hence truncated). -/
def gsizeF32 (smallest largest s : Nat) : F32 :=
  F32.add (.val (1/5))
    (F32.mul (.val 2)
      (F32.fmax
        (F32.fmin
          (F32.div (.val ((s - smallest : Nat) : ℚ)) (.val ((largest - smallest : Nat) : ℚ)))
          (.val 1))
        (.val 0)))

/-- The per-node part of the second loop: sort the dependencies and set
`graph_size`. -/
def pass2Node (smallest largest : Nat) (pkg : Package) : Package :=
  { pkg with dependencies := sortNat pkg.dependencies,
             graph_size := gsizeF32 smallest largest pkg.size_bytes }

def appendPosFn (pos : Nat) : List Nat → List Nat := fun b => b ++ [pos]

def setShortNameFn (name : List Char) : Package → Package :=
  fun pkg => { pkg with short_name := name }

/-- Rust `calculate_graph_properties`: the single second loop of the
source writes two disjoint pieces of state (the `by_level` buckets and
the per-node fields), modelled as a fold and a map; the final loop
installs the disambiguated short names from `graph_names`. -/
def PackageTree.calcGraphProperties (t : PackageTree) : Option PackageTree :=
  match pass1 t.nodes t.nodes.enum pass1Init with
  | none => none
  | some st =>
    let byl0 := t.by_level ++ List.replicate (st.largest_level + 1) []
    let byl := t.nodes.enum.foldl
      (fun byl e => modifyIdx byl e.2.level (appendPosFn e.1)) byl0
    let nodes2 := t.nodes.map (pass2Node st.smallest_size_bytes st.largest_size_bytes)
    let nodes3 := st.graph_names.foldl
      (fun ns e => modifyIdx ns e.2 (setShortNameFn e.1)) nodes2
    some { nodes := nodes3, by_level := byl }

/-! ## The layout exporter's rank chunking
(src/main.rs lines 246-267) -/

/-- The chunk size `generate_dot_file` computes for every level.  Note
the source takes `total_elements` from `tree.by_level.len()` (the
number of levels). -/
def dotChunkSize (t : PackageTree) : Nat :=
  Nat.max (1 + t.by_level.length / (1 + t.by_level.length / 20)) 20

/-- The same-rank chunks emitted for a given level, in arena order. -/
def dotRankChunks (t : PackageTree) (level : Nat) : List (List Nat) :=
  chunksOf (dotChunkSize t) (t.by_level.getD level [])

/-- The chunk-size formula exactly as the specification words it, with
`p` the number of nodes at the level in question. -/
def specChunkSize (p : Nat) : Nat :=
  Nat.max 20 (1 + p / (1 + p / 20))

/-! ## The tabular (CSV) exporter `generate_package_list`
(src/main.rs lines 279-314) -/

def csvHeader : List Char := "pos,level,package_name,size_bytes,dependencies,path".toList

/-- The content of the quoted dependency column of a row. -/
def depsColumn (pkg : Package) : List Char :=
  joinComma (pkg.dependencies.map natToChars)

/-- One CSV row:
`{pos},{level},{short_name},{size_bytes},"{deps comma-joined}",{path}`. -/
def csvRow (pkg_pos level : Nat) (pkg : Package) : List Char :=
  natToChars pkg_pos ++ [','] ++ natToChars level ++ [','] ++ pkg.short_name
    ++ [','] ++ natToChars pkg.size_bytes ++ [',', '"'] ++ depsColumn pkg
    ++ ['"', ','] ++ pkg.path

/-- The lines written by `generate_package_list`: the fixed header, then
one row per node, grouped by increasing level, in bucket order (the
source's `for level in 0..by_level.len()` indexed loop is the fold over
`by_level.enum`). -/
def generatePackageList (t : PackageTree) : List (List Char) :=
  csvHeader :: t.by_level.enum.flatMap
    (fun e => e.2.map
      (fun pkg_pos => csvRow pkg_pos e.1 (t.nodes.getD pkg_pos dfltPackage)))

/-! ## Predicates and concrete examples used by the claims -/

/-- No node's `dependencies` list contains the node's own arena index. -/
def SelfLoopFree (t : PackageTree) : Prop :=
  ∀ i, i < t.nodes.length → i ∉ (t.nodes.getD i dfltPackage).dependencies

/-- The back-reference target a line would resolve, if the line is a
well-formed back-reference line (branch marker, absolute path, `[...]`
suffix): the path with the suffix stripped and trimmed. -/
def backrefTarget (l : List Char) : Option (List Char) :=
  match stripMarker l with
  | none => none
  | some s =>
    let object_path := s.dropWhile (· = '─')
    if object_path.head? = some '/' then
      if backrefSuffix.isSuffixOf object_path then
        some (trimWS (object_path.take (object_path.length - 5)))
      else none
    else none

/-- No line of the text (nor any stripped form of one, i.e. any suffix)
back-references the root path.  This captures "the drawn structure is a
DAG rooted at the first line's path": in such a tree the root has no
incoming edge, so no line refers back to it. -/
def NoRootBackref (rootPath : List Char) (lines : List (List Char)) : Prop :=
  ∀ l ∈ lines, ∀ s ∈ l.tails, backrefTarget s ≠ some rootPath

/-- Number of lines whose path token does not carry the back-reference
suffix (prefix-stripping never touches the last five characters, so
this is a property of the whole line). -/
def countNonBackref (lines : List (List Char)) : Nat :=
  lines.countP (fun l => !(backrefSuffix.isSuffixOf l))

/-- The empty tree (used only as a `getD` default in examples). -/
def emptyTree : PackageTree := { nodes := [], by_level := [] }

/-- Size oracle used by the concrete examples: every path has 7 bytes. -/
def exSz : List Char → Nat := fun _ => 7

def exPathA : List Char := "/nix/store/aaaaaaaaaaaaaaaaaaaaaaaaaaaaaaaa-x".toList

def exPathB : List Char := "/nix/store/bbbbbbbbbbbbbbbbbbbbbbbbbbbbbbbb-y".toList

/-- Concrete two-node graph in which every node has the same
`size_bytes`. -/
def exT2 : PackageTree :=
  { nodes := [Package.new exSz exPathA, Package.new exSz exPathB], by_level := [] }

def exT2Calc : PackageTree := (exT2.calcGraphProperties).getD emptyTree

def exColPath1 : List Char := "/nix/store/aaaaaaaaaaaaaaaaaaaaaaaaaaaaaaaa-pkg".toList

def exColPath2 : List Char := "/nix/store/bbbbbbbbbbbbbbbbbbbbbbbbbbbbbbbb-pkg".toList

def exColPath3 : List Char := "/nix/store/cccccccccccccccccccccccccccccccc-pkg".toList

/-- Concrete three-node graph whose three paths share the symbolic key
`pkg` (distinct 32-character hashes, same name part). -/
def exT3 : PackageTree :=
  { nodes := [Package.new exSz exColPath1, Package.new exSz exColPath2,
      Package.new exSz exColPath3], by_level := [] }

def exT3Calc : PackageTree := (exT3.calcGraphProperties).getD emptyTree

/-- Tree text whose drawn structure is root `/r` with single child `/a`,
`/a` having child `/b`, and `/b` having child `/c` (all last-siblings,
so all nesting is drawn with plain spaces). -/
def exC3Lines : List (List Char) :=
  ["/r".toList, "└───/a".toList, "    └───/b".toList, "        └───/c".toList]

/-- Simple well-formed tree text: root `/r` with children `/a` and `/c`,
and `/b` nested under `/a`. -/
def exSimpleLines : List (List Char) :=
  ["/r".toList, "├───/a".toList, "│   └───/b".toList, "└───/c".toList]

/-- Graph containing a node whose path is shorter than the 44-byte hash
prefix. -/
def exC10Tree : PackageTree :=
  { nodes := [Package.new exSz "/short".toList], by_level := [] }

/-- Concrete two-node tree used to exercise `register_dependency`. -/
def exC4Tree : PackageTree :=
  { nodes := [Package.new exSz "/r".toList, Package.new exSz "/a".toList],
    by_level := [] }

/-- The graph the parser produces from `exSimpleLines`. -/
def exSimpleParsed : PackageTree :=
  ((parseTree exSz 100 exSimpleLines).toOption).getD emptyTree

/-- A store-like root path (48 bytes). -/
def exStoreRoot : List Char :=
  "/nix/store/rrrrrrrrrrrrrrrrrrrrrrrrrrrrrrrr-root".toList

/-- A store-like dependency path (47 bytes). -/
def exStoreChild : List Char :=
  "/nix/store/dddddddddddddddddddddddddddddddd-dep".toList

/-- Tree text: the store-like root with one child, no back-references. -/
def exC5Lines : List (List Char) := [exStoreRoot, "├───".toList ++ exStoreChild]

def exC5Parsed : PackageTree :=
  ((parseTree exSz 100 exC5Lines).toOption).getD emptyTree

def exC5Calc : PackageTree := (exC5Parsed.calcGraphProperties).getD emptyTree

/-! ## Helper lemmas -/

theorem modifyIdx_length (l : List α) (i : Nat) (f : α → α) :
    (modifyIdx l i f).length = l.length := by
  induction l generalizing i with
  | nil => rfl
  | cons x xs ih =>
    cases i with
    | zero => rfl
    | succ n => simp [modifyIdx, ih]

theorem getD_modifyIdx_self (l : List α) (i : Nat) (f : α → α) (d : α)
    (h : i < l.length) : (modifyIdx l i f).getD i d = f (l.getD i d) := by
  induction l generalizing i with
  | nil => simp at h
  | cons x xs ih =>
    cases i with
    | zero => rfl
    | succ n =>
      simp only [modifyIdx, List.getD_cons_succ]
      exact ih n (by simpa using h)

theorem getD_modifyIdx_ne (l : List α) (i : Nat) (f : α → α) (d : α)
    (j : Nat) (h : j ≠ i) : (modifyIdx l i f).getD j d = l.getD j d := by
  induction l generalizing i j with
  | nil => rfl
  | cons x xs ih =>
    cases i with
    | zero =>
      cases j with
      | zero => exact absurd rfl h
      | succ m => rfl
    | succ n =>
      cases j with
      | zero => rfl
      | succ m =>
        simp only [modifyIdx, List.getD_cons_succ]
        exact ih n m (fun hh => h (by simp [hh]))

theorem insertSorted_perm (n : Nat) (l : List Nat) :
    (insertSorted n l).Perm (n :: l) := by
  induction l with
  | nil => exact List.Perm.refl _
  | cons m ms ih =>
    by_cases h : n ≤ m
    · simp [insertSorted, h]
    · simp only [insertSorted, if_neg h]
      exact ((ih.cons m).trans (List.Perm.swap n m ms))

theorem sortNat_perm (l : List Nat) : (sortNat l).Perm l := by
  induction l with
  | nil => exact List.Perm.refl _
  | cons x xs ih =>
    exact (insertSorted_perm x (sortNat xs)).trans (ih.cons x)

theorem insertSorted_sorted (n : Nat) (l : List Nat)
    (h : l.Sorted (· ≤ ·)) : (insertSorted n l).Sorted (· ≤ ·) := by
  induction l with
  | nil => simp [insertSorted]
  | cons m ms ih =>
    rcases List.sorted_cons.mp h with ⟨hm, hms⟩
    by_cases hnm : n ≤ m
    · simp only [insertSorted, if_pos hnm]
      exact List.sorted_cons.mpr ⟨by
        intro b hb
        rcases List.mem_cons.mp hb with hb | hb
        · exact hb ▸ hnm
        · exact le_trans hnm (hm b hb), h⟩
    · simp only [insertSorted, if_neg hnm]
      refine List.sorted_cons.mpr ⟨?_, ih hms⟩
      intro b hb
      have hb2 := (insertSorted_perm n ms).mem_iff.mp hb
      rcases List.mem_cons.mp hb2 with hb3 | hb3
      · exact hb3 ▸ le_of_not_le hnm
      · exact hm b hb3

theorem sortNat_sorted (l : List Nat) : (sortNat l).Sorted (· ≤ ·) := by
  induction l with
  | nil => simp [sortNat]
  | cons x xs ih => exact insertSorted_sorted x (sortNat xs) ih

theorem digitVal_digitChar (n : Nat) (h : n < 10) : digitVal (digitChar n) = n := by
  interval_cases n <;> rfl

theorem parseNat_append (a b : List Char) :
    parseNat (a ++ b) = b.foldl (fun acc c => acc * 10 + digitVal c) (parseNat a) := by
  simp [parseNat, List.foldl_append]

theorem parseNat_natToChars (n : Nat) : parseNat (natToChars n) = n := by
  induction n using Nat.strong_induction_on with
  | _ n ih =>
    by_cases h : n < 10
    · rw [natToChars, dif_pos h]
      simp [parseNat, digitVal_digitChar n h]
    · rw [natToChars, dif_neg h, parseNat_append,
        ih (n / 10) (Nat.div_lt_self (by omega) (by omega))]
      simp [digitVal_digitChar (n % 10) (Nat.mod_lt _ (by omega))]
      omega

theorem natToChars_ne_nil (n : Nat) : natToChars n ≠ [] := by
  rw [natToChars]
  by_cases h : n < 10 <;> simp [h]

theorem mem_natToChars_ne_comma (n : Nat) (c : Char) (h : c ∈ natToChars n) :
    c ≠ ',' := by
  induction n using Nat.strong_induction_on with
  | _ n ih =>
    by_cases hn : n < 10
    · rw [natToChars, dif_pos hn] at h
      simp only [List.mem_singleton] at h
      subst h
      have h10 := hn
      interval_cases n <;> decide
    · rw [natToChars, dif_neg hn] at h
      rcases List.mem_append.mp h with h | h
      · exact ih (n / 10) (Nat.div_lt_self (by omega) (by omega)) h
      · simp only [List.mem_singleton] at h
        subst h
        have : n % 10 < 10 := Nat.mod_lt _ (by omega)
        revert this
        generalize n % 10 = m
        intro hm
        interval_cases m <;> decide

theorem joinComma_cons_ne_nil (p : List Char) (ps : List (List Char))
    (hp : p ≠ []) : joinComma (p :: ps) ≠ [] := by
  cases ps with
  | nil => simpa [joinComma, List.intercalate, List.intersperse] using hp
  | cons q qs =>
    simp only [joinComma, List.intercalate, List.intersperse_cons_cons,
      List.flatten_cons]
    intro hcontra
    exact hp (List.append_eq_nil.mp hcontra).1

theorem parseDeps_joinComma (ns : List Nat) :
    parseDeps (joinComma (ns.map natToChars)) = ns := by
  cases ns with
  | nil => rfl
  | cons n ms =>
    have hne : joinComma ((n :: ms).map natToChars) ≠ [] := by
      simpa using joinComma_cons_ne_nil (natToChars n) (ms.map natToChars)
        (natToChars_ne_nil n)
    rw [parseDeps, if_neg hne]
    rw [show joinComma ((n :: ms).map natToChars)
        = [','].intercalate ((n :: ms).map natToChars) from rfl]
    rw [List.splitOn_intercalate ((n :: ms).map natToChars) ','
      (by
        intro l hl hc
        rcases List.mem_map.mp hl with ⟨k, _, hk⟩
        exact mem_natToChars_ne_comma k ',' (hk ▸ hc) rfl)
      (by simp)]
    rw [List.map_map]
    have hid : parseNat ∘ natToChars = id := funext fun k => parseNat_natToChars k
    simp [hid]

theorem chunksOf_flatten (k : Nat) (l : List α) : (chunksOf k l).flatten = l := by
  generalize hn : l.length = n
  induction n using Nat.strong_induction_on generalizing l with
  | _ n ih =>
    cases l with
    | nil => simp [chunksOf]
    | cons x xs =>
      rw [chunksOf]
      simp only [List.flatten_cons]
      have hdl : (xs.drop (k - 1)).length ≤ xs.length := by
        simpa using List.length_drop (k - 1) xs
      rw [ih (xs.drop (k - 1)).length (by simp at hn; omega) _ rfl]
      simp [List.cons_append, List.take_append_drop]

theorem getD_modifyIdx_invariant {α : Type _} {β : Type _} (g : α → β) (l : List α)
    (i : Nat) (f : α → α) (d : α) (hf : ∀ x, g (f x) = g x) (j : Nat) :
    g ((modifyIdx l i f).getD j d) = g (l.getD j d) := by
  by_cases hj : j = i
  · subst hj
    by_cases hlt : j < l.length
    · rw [getD_modifyIdx_self _ _ _ _ hlt, hf]
    · have h1 : l.length ≤ j := by omega
      have h2 : (modifyIdx l j f).length ≤ j := by rw [modifyIdx_length]; exact h1
      rw [List.getD_eq_default _ _ h1, List.getD_eq_default _ _ h2]
  · rw [getD_modifyIdx_ne _ _ _ _ _ hj]

theorem path_addDepFn (c : Nat) (x : Package) : (addDepFn c x).path = x.path := rfl

theorem path_addUsedByFn (p : Nat) (x : Package) : (addUsedByFn p x).path = x.path := rfl

theorem path_setLevelFn (lv : Nat) (x : Package) : (setLevelFn lv x).path = x.path := rfl

theorem registerDependency_length (t : PackageTree) (p c : Nat) :
    (t.registerDependency p c).nodes.length = t.nodes.length := by
  simp [PackageTree.registerDependency, modifyIdx_length]

theorem registerDependency_path (t : PackageTree) (p c j : Nat) :
    ((t.registerDependency p c).nodes.getD j dfltPackage).path
      = (t.nodes.getD j dfltPackage).path := by
  simp only [PackageTree.registerDependency]
  rw [getD_modifyIdx_invariant Package.path _ _ (setLevelFn _) _ (path_setLevelFn _),
    getD_modifyIdx_invariant Package.path _ _ (addUsedByFn _) _ (path_addUsedByFn _),
    getD_modifyIdx_invariant Package.path _ _ (addDepFn _) _ (path_addDepFn _)]

theorem registerDependency_level_ne (t : PackageTree) (p c j : Nat) (hj : j ≠ c) :
    ((t.registerDependency p c).nodes.getD j dfltPackage).level
      = (t.nodes.getD j dfltPackage).level := by
  simp only [PackageTree.registerDependency]
  rw [getD_modifyIdx_ne _ _ _ _ _ hj,
    getD_modifyIdx_invariant Package.level _ _ (addUsedByFn _) _ (fun x => rfl),
    getD_modifyIdx_invariant Package.level _ _ (addDepFn _) _ (fun x => rfl)]

theorem registerDependency_deps_ne (t : PackageTree) (p c j : Nat) (hj : j ≠ p) :
    ((t.registerDependency p c).nodes.getD j dfltPackage).dependencies
      = (t.nodes.getD j dfltPackage).dependencies := by
  simp only [PackageTree.registerDependency]
  rw [getD_modifyIdx_invariant Package.dependencies _ _ (setLevelFn _) _ (fun x => rfl),
    getD_modifyIdx_invariant Package.dependencies _ _ (addUsedByFn _) _ (fun x => rfl),
    getD_modifyIdx_ne _ _ _ _ _ hj]

theorem registerDependency_deps_self (t : PackageTree) (p c : Nat)
    (hp : p < t.nodes.length) :
    ((t.registerDependency p c).nodes.getD p dfltPackage).dependencies
      = (t.nodes.getD p dfltPackage).dependencies ++ [c] := by
  simp only [PackageTree.registerDependency]
  rw [getD_modifyIdx_invariant Package.dependencies _ _ (setLevelFn _) _ (fun x => rfl),
    getD_modifyIdx_invariant Package.dependencies _ _ (addUsedByFn _) _ (fun x => rfl),
    getD_modifyIdx_self _ _ _ _ hp]
  rfl

theorem registerDependency_usedby_self (t : PackageTree) (p c : Nat)
    (hc : c < t.nodes.length) :
    ((t.registerDependency p c).nodes.getD c dfltPackage).used_by
      = (t.nodes.getD c dfltPackage).used_by ++ [p] := by
  simp only [PackageTree.registerDependency]
  rw [getD_modifyIdx_invariant Package.used_by _ _ (setLevelFn _) _ (fun x => rfl),
    getD_modifyIdx_self _ _ _ _ (by rw [modifyIdx_length]; omega)]
  simp only [addUsedByFn]
  rw [getD_modifyIdx_invariant Package.used_by _ _ (addDepFn _) _ (fun x => rfl)]

theorem registerDependency_levelAt (t : PackageTree) (p c j : Nat) (hj : j ≠ c) :
    (t.registerDependency p c).levelAt j = t.levelAt j := by
  unfold PackageTree.levelAt
  exact registerDependency_level_ne t p c j hj

theorem registerDependency_level_self (t : PackageTree) (p c : Nat)
    (hc : c < t.nodes.length) :
    ((t.registerDependency p c).nodes.getD c dfltPackage).level
      = (((t.nodes.getD c dfltPackage).used_by ++ [p]).map t.levelAt).foldl Nat.max 0
          + 1 := by
  have hlevels : ∀ j : Nat,
      ((modifyIdx (modifyIdx t.nodes p (addDepFn c)) c (addUsedByFn p)).getD j
          dfltPackage).level
        = (t.nodes.getD j dfltPackage).level := by
    intro j
    rw [getD_modifyIdx_invariant Package.level _ _ (addUsedByFn _) _ (fun x => rfl),
      getD_modifyIdx_invariant Package.level _ _ (addDepFn _) _ (fun x => rfl)]
  have husedby :
      ((modifyIdx (modifyIdx t.nodes p (addDepFn c)) c (addUsedByFn p)).getD c
          dfltPackage).used_by
        = (t.nodes.getD c dfltPackage).used_by ++ [p] := by
    rw [getD_modifyIdx_self _ _ _ _ (by rw [modifyIdx_length]; omega)]
    simp only [addUsedByFn]
    rw [getD_modifyIdx_invariant Package.used_by _ _ (addDepFn _) _ (fun x => rfl)]
  have hmap : ∀ l' : List Nat,
      List.map
        (PackageTree.levelAt
          ⟨modifyIdx (modifyIdx t.nodes p (addDepFn c)) c (addUsedByFn p), t.by_level⟩)
        l' = List.map t.levelAt l' := by
    intro l'
    apply List.map_congr_left
    intro j _
    simp only [PackageTree.levelAt]
    exact hlevels j
  simp only [PackageTree.registerDependency]
  rw [getD_modifyIdx_self _ _ _ _ (by rw [modifyIdx_length, modifyIdx_length]; omega)]
  simp only [setLevelFn, husedby, hmap]

/-- C4: `register_dependency(parent, child)` appends `child` to the
parent's `dependencies` and `parent` to the child's `used_by`, then sets
the child's level to `1 +` the maximum level over *all* nodes currently
in the child's `used_by` (taken at their pre-call levels), and no node
other than the child has its level changed — in particular nodes that
earlier derived their level from the child keep their old level. -/
theorem c4_registerDependency_spec (t : PackageTree) (p c : Nat)
    (hp : p < t.nodes.length) (hc : c < t.nodes.length) :
    ((t.registerDependency p c).nodes.getD p dfltPackage).dependencies
        = (t.nodes.getD p dfltPackage).dependencies ++ [c]
    ∧ ((t.registerDependency p c).nodes.getD c dfltPackage).used_by
        = (t.nodes.getD c dfltPackage).used_by ++ [p]
    ∧ ((t.registerDependency p c).nodes.getD c dfltPackage).level
        = 1 + (((t.nodes.getD c dfltPackage).used_by ++ [p]).map t.levelAt).foldl Nat.max 0
    ∧ ∀ j, j ≠ c → ((t.registerDependency p c).nodes.getD j dfltPackage).level
        = (t.nodes.getD j dfltPackage).level :=
  ⟨registerDependency_deps_self t p c hp,
   registerDependency_usedby_self t p c hc,
   by rw [registerDependency_level_self t p c hc]; omega,
   fun j hj => registerDependency_level_ne t p c j hj⟩

theorem c4_witness :
    0 < exC4Tree.nodes.length ∧ 1 < exC4Tree.nodes.length
    ∧ ((exC4Tree.registerDependency 0 1).nodes.getD 1 dfltPackage).used_by
        = (exC4Tree.nodes.getD 1 dfltPackage).used_by ++ [0] :=
  ⟨by decide, by decide,
   (c4_registerDependency_spec exC4Tree 0 1 (by decide) (by decide)).2.1⟩

theorem chunk_formula_le (n : Nat) : 1 + n / (1 + n / 20) ≤ 20 := by
  have hq := Nat.div_add_mod n 20
  have hr : n % 20 < 20 := Nat.mod_lt _ (by omega)
  have h : n / (1 + n / 20) < 20 := by
    rw [Nat.div_lt_iff_lt_mul (by omega : 0 < 1 + n / 20)]
    omega
  omega

theorem specChunkSize_eq_twenty (p : Nat) : specChunkSize p = 20 :=
  Nat.max_eq_left (chunk_formula_le p)

theorem dotChunkSize_eq_twenty (t : PackageTree) : dotChunkSize t = 20 :=
  Nat.max_eq_right (chunk_formula_le t.by_level.length)

/-- C1: for every level, the bucket of node indices of that level is
partitioned, in arena order, into chunks of size
`max(20, 1 + p / (1 + p / 20))` with `p` the level's population (the
formula is identically 20, which is also what the source computes even
though it feeds `by_level.len()` into it); in particular populations 50
and 5 both give chunk size 20. -/
theorem c1_rank_chunking (t : PackageTree) (level : Nat) :
    dotRankChunks t level
      = chunksOf (specChunkSize (t.by_level.getD level []).length)
          (t.by_level.getD level [])
    ∧ (dotRankChunks t level).flatten = t.by_level.getD level []
    ∧ specChunkSize 50 = 20 ∧ specChunkSize 5 = 20 := by
  refine ⟨?_, ?_, specChunkSize_eq_twenty 50, specChunkSize_eq_twenty 5⟩
  · rw [dotRankChunks, dotChunkSize_eq_twenty, specChunkSize_eq_twenty]
  · rw [dotRankChunks, chunksOf_flatten]

theorem pass1_none_of_bad (nodes : List Package) (pairs : List (Nat × Package))
    (st : Pass1State) (h : ∃ e ∈ pairs, symbolicName e.2.path = none) :
    pass1 nodes pairs st = none := by
  induction pairs generalizing st with
  | nil =>
    rcases h with ⟨e, he, _⟩
    cases he
  | cons e rest ih =>
    obtain ⟨pos, pkg⟩ := e
    rcases h with ⟨e', he', hbad⟩
    rcases List.mem_cons.mp he' with rfl | hmem
    · have hstep : pass1Step nodes st pos pkg = none := by
        simp only [pass1Step, hbad]
      simp only [pass1, hstep]
    · cases hstep : pass1Step nodes st pos pkg with
      | none => simp only [pass1, hstep]
      | some st' =>
        simp only [pass1, hstep]
        exact ih st' ⟨e', hmem, hbad⟩

theorem exists_enum_of_mem {α : Type _} {l : List α} {x : α} (h : x ∈ l) :
    ∃ i, (i, x) ∈ l.enum := by
  rcases List.mem_iff_get.mp h with ⟨n, rfl⟩
  exact ⟨n, by simpa using List.mem_enum_iff_getElem?.mpr (by simp)⟩

/-- C10: the annotation pass is only total on graphs whose every node
path carries the full 44-byte `/nix/store/<hash>-` prefix: as soon as
one node's path is shorter (or byte 44 is not a character boundary),
`calculate_graph_properties` aborts with the `split_at` panic, although
the input contract only requires absolute paths. -/
theorem c10_calc_aborts (t : PackageTree)
    (h : ∃ pkg ∈ t.nodes, symbolicName pkg.path = none) :
    t.calcGraphProperties = none := by
  rcases h with ⟨pkg, hmem, hbad⟩
  obtain ⟨i, hi⟩ := exists_enum_of_mem hmem
  have hp1 : pass1 t.nodes t.nodes.enum pass1Init = none :=
    pass1_none_of_bad _ _ _ ⟨(i, pkg), hi, hbad⟩
  simp only [PackageTree.calcGraphProperties, hp1]

theorem c10_witness :
    (∃ pkg ∈ exC10Tree.nodes, symbolicName pkg.path = none)
    ∧ exC10Tree.calcGraphProperties = none :=
  ⟨by decide, c10_calc_aborts exC10Tree (by decide)⟩

theorem foldl_min_le_init (l : List Nat) (a : Nat) : l.foldl Nat.min a ≤ a := by
  induction l generalizing a with
  | nil => exact le_refl a
  | cons x xs ih => exact le_trans (ih (Nat.min a x)) (Nat.min_le_left a x)

theorem foldl_min_le_mem (l : List Nat) (a x : Nat) (hx : x ∈ l) :
    l.foldl Nat.min a ≤ x := by
  induction l generalizing a with
  | nil => cases hx
  | cons y ys ih =>
    rcases List.mem_cons.mp hx with rfl | hmem
    · exact le_trans (foldl_min_le_init ys _) (Nat.min_le_right a x)
    · exact ih (Nat.min a y) hmem

theorem le_foldl_max_init (l : List Nat) (a : Nat) : a ≤ l.foldl Nat.max a := by
  induction l generalizing a with
  | nil => exact le_refl a
  | cons x xs ih => exact le_trans (Nat.le_max_left a x) (ih (Nat.max a x))

theorem le_foldl_max_mem (l : List Nat) (a x : Nat) (hx : x ∈ l) :
    x ≤ l.foldl Nat.max a := by
  induction l generalizing a with
  | nil => cases hx
  | cons y ys ih =>
    rcases List.mem_cons.mp hx with rfl | hmem
    · exact le_trans (Nat.le_max_right a x) (le_foldl_max_init ys _)
    · exact ih (Nat.max a y) hmem

theorem foldl_min_const (l : List Nat) (a s : Nat) (hne : l ≠ [])
    (hl : ∀ x ∈ l, x = s) : l.foldl Nat.min a = Nat.min a s := by
  induction l generalizing a with
  | nil => exact absurd rfl hne
  | cons y ys ih =>
    have hy : y = s := hl y (List.mem_cons_self _ _)
    subst hy
    cases ys with
    | nil => rfl
    | cons z zs =>
      rw [List.foldl_cons,
        ih (Nat.min a y) (by simp) (fun x hx => hl x (List.mem_cons_of_mem _ hx))]
      simp only [Nat.min_def]
      split_ifs <;> omega

theorem foldl_max_const (l : List Nat) (a s : Nat) (hne : l ≠ [])
    (hl : ∀ x ∈ l, x = s) : l.foldl Nat.max a = Nat.max a s := by
  induction l generalizing a with
  | nil => exact absurd rfl hne
  | cons y ys ih =>
    have hy : y = s := hl y (List.mem_cons_self _ _)
    subst hy
    cases ys with
    | nil => rfl
    | cons z zs =>
      rw [List.foldl_cons,
        ih (Nat.max a y) (by simp) (fun x hx => hl x (List.mem_cons_of_mem _ hx))]
      simp only [Nat.max_def]
      split_ifs <;> omega

theorem pass1Step_fields (nodes : List Package) (st : Pass1State) (pos : Nat)
    (pkg : Package) (st1 : Pass1State) (h : pass1Step nodes st pos pkg = some st1) :
    st1.smallest_size_bytes = Nat.min st.smallest_size_bytes pkg.size_bytes
    ∧ st1.largest_size_bytes = Nat.max st.largest_size_bytes pkg.size_bytes
    ∧ st1.largest_level = Nat.max st.largest_level pkg.level := by
  simp only [pass1Step] at h
  split at h
  · cases h
  · split at h <;> (injection h with h2; subst h2) <;> exact ⟨rfl, rfl, rfl⟩

theorem pass1_fields (nodes : List Package) (pairs : List (Nat × Package))
    (st st' : Pass1State) (h : pass1 nodes pairs st = some st') :
    st'.smallest_size_bytes
        = (pairs.map (fun e => e.2.size_bytes)).foldl Nat.min st.smallest_size_bytes
    ∧ st'.largest_size_bytes
        = (pairs.map (fun e => e.2.size_bytes)).foldl Nat.max st.largest_size_bytes
    ∧ st'.largest_level
        = (pairs.map (fun e => e.2.level)).foldl Nat.max st.largest_level := by
  induction pairs generalizing st with
  | nil =>
    simp only [pass1] at h
    injection h with h
    subst h
    exact ⟨rfl, rfl, rfl⟩
  | cons e rest ih =>
    obtain ⟨pos, pkg⟩ := e
    simp only [pass1] at h
    cases hstep : pass1Step nodes st pos pkg with
    | none => rw [hstep] at h; cases h
    | some st1 =>
      rw [hstep] at h
      obtain ⟨h1, h2, h3⟩ := pass1Step_fields nodes st pos pkg st1 hstep
      obtain ⟨g1, g2, g3⟩ := ih st1 h
      exact ⟨by rw [g1, h1, List.map_cons, List.foldl_cons],
             by rw [g2, h2, List.map_cons, List.foldl_cons],
             by rw [g3, h3, List.map_cons, List.foldl_cons]⟩

theorem shortNameFold_invariant {β : Type _} (g : Package → β)
    (hg : ∀ name x, g (setShortNameFn name x) = g x)
    (m : List (List Char × Nat)) (ns : List Package) (j : Nat) :
    g ((m.foldl (fun ns e => modifyIdx ns e.2 (setShortNameFn e.1)) ns).getD j
        dfltPackage)
      = g (ns.getD j dfltPackage) := by
  induction m generalizing ns with
  | nil => rfl
  | cons e rest ih =>
    rw [List.foldl_cons, ih,
      getD_modifyIdx_invariant g _ _ (setShortNameFn e.1) _ (hg e.1)]

theorem shortNameFold_length (m : List (List Char × Nat)) (ns : List Package) :
    (m.foldl (fun ns e => modifyIdx ns e.2 (setShortNameFn e.1)) ns).length
      = ns.length := by
  induction m generalizing ns with
  | nil => rfl
  | cons e rest ih => rw [List.foldl_cons, ih, modifyIdx_length]

theorem calc_destruct (t t' : PackageTree) (h : t.calcGraphProperties = some t') :
    ∃ st, pass1 t.nodes t.nodes.enum pass1Init = some st
      ∧ t'.nodes
          = st.graph_names.foldl (fun ns e => modifyIdx ns e.2 (setShortNameFn e.1))
              (t.nodes.map (pass2Node st.smallest_size_bytes st.largest_size_bytes))
      ∧ t'.by_level
          = t.nodes.enum.foldl (fun byl e => modifyIdx byl e.2.level (appendPosFn e.1))
              (t.by_level ++ List.replicate (st.largest_level + 1) []) := by
  simp only [PackageTree.calcGraphProperties] at h
  split at h
  · cases h
  · rename_i st hst
    injection h with h
    exact ⟨st, hst, by rw [← h], by rw [← h]⟩

theorem gsizeF32_all_equal (sm s : Nat) (hsm : sm ≤ s) :
    gsizeF32 sm s s = F32.val (11/5) := by
  have hmax : max (1:ℚ) 0 = 1 := max_eq_left (by norm_num)
  by_cases h : sm = s
  · subst h
    have hdiv : F32.div (F32.val ((sm - sm : Nat) : ℚ)) (F32.val ((sm - sm : Nat) : ℚ))
        = F32.nan := by
      rw [Nat.sub_self]
      simp [F32.div]
    unfold gsizeF32
    rw [hdiv]
    simp only [F32.fmin, F32.fmax, F32.mul, F32.add]
    congr 1
    rw [hmax]
    norm_num
  · have hlt : sm < s := lt_of_le_of_ne hsm h
    have hpos : (0:ℚ) < ((s - sm : Nat) : ℚ) := by
      exact_mod_cast Nat.sub_pos_of_lt hlt
    have hdiv : F32.div (F32.val ((s - sm : Nat) : ℚ)) (F32.val ((s - sm : Nat) : ℚ))
        = F32.val 1 := by
      simp only [F32.div, if_neg (ne_of_gt hpos)]
      rw [div_self (ne_of_gt hpos)]
    unfold gsizeF32
    rw [hdiv]
    simp only [F32.fmin, F32.fmax, F32.mul, F32.add, min_self]
    congr 1
    rw [hmax]
    norm_num

theorem gsizeF32_bounds (sm la s : Nat) (h1 : sm ≤ s) (h2 : s ≤ la) :
    ∃ q : ℚ, gsizeF32 sm la s = F32.val q ∧ 1/5 ≤ q ∧ q ≤ 11/5 := by
  have hmax : max (1:ℚ) 0 = 1 := max_eq_left (by norm_num)
  by_cases hd : ((la - sm : Nat) : ℚ) = 0
  · have hs : s - sm = 0 := by
      have hla : la - sm = 0 := by exact_mod_cast hd
      omega
    have hdiv : F32.div (F32.val ((s - sm : Nat) : ℚ)) (F32.val ((la - sm : Nat) : ℚ))
        = F32.nan := by
      rw [hs, hd]
      simp [F32.div]
    refine ⟨11/5, ?_, by norm_num, le_refl _⟩
    unfold gsizeF32
    rw [hdiv]
    simp only [F32.fmin, F32.fmax, F32.mul, F32.add]
    congr 1
    rw [hmax]
    norm_num
  · have hpos : (0:ℚ) < ((la - sm : Nat) : ℚ) := by
      rcases Nat.eq_zero_or_pos (la - sm) with hz | hp
      · exact absurd (by exact_mod_cast hz) hd
      · exact_mod_cast hp
    have hx0 : (0:ℚ) ≤ ((s - sm : Nat) : ℚ) / ((la - sm : Nat) : ℚ) :=
      div_nonneg (by positivity) (le_of_lt hpos)
    have hx1 : ((s - sm : Nat) : ℚ) / ((la - sm : Nat) : ℚ) ≤ 1 := by
      rw [div_le_one hpos]
      exact_mod_cast Nat.sub_le_sub_right h2 sm
    refine ⟨1/5 + 2 * (max (min (((s - sm : Nat) : ℚ) / ((la - sm : Nat) : ℚ)) 1) 0),
      ?_, ?_, ?_⟩
    · simp only [gsizeF32, F32.div, if_neg hd, F32.fmin, F32.fmax, F32.mul, F32.add]
    · have : (0:ℚ) ≤ max (min (((s - sm : Nat) : ℚ) / ((la - sm : Nat) : ℚ)) 1) 0 :=
        le_max_right _ _
      linarith
    · have : max (min (((s - sm : Nat) : ℚ) / ((la - sm : Nat) : ℚ)) 1) 0 ≤ 1 :=
        max_le (min_le_right _ _) (by norm_num)
      linarith

theorem node_mem_enum_size (t : PackageTree) (j : Nat) (hj : j < t.nodes.length) :
    (t.nodes.getD j dfltPackage).size_bytes
      ∈ t.nodes.enum.map (fun e => e.2.size_bytes) := by
  apply List.mem_map.mpr
  refine ⟨(j, t.nodes.getD j dfltPackage), ?_, rfl⟩
  rw [List.getD_eq_getElem _ _ hj]
  exact List.mk_mem_enum_iff_getElem?.mpr (by simp [hj])

theorem calc_graph_size_at (t t' : PackageTree) (st : Pass1State)
    (hst : pass1 t.nodes t.nodes.enum pass1Init = some st)
    (hnodes : t'.nodes
      = st.graph_names.foldl (fun ns e => modifyIdx ns e.2 (setShortNameFn e.1))
          (t.nodes.map (pass2Node st.smallest_size_bytes st.largest_size_bytes)))
    (pkg : Package) (hmem : pkg ∈ t'.nodes) :
    ∃ j, j < t.nodes.length
      ∧ pkg.graph_size = gsizeF32 st.smallest_size_bytes st.largest_size_bytes
          ((t.nodes.getD j dfltPackage).size_bytes) := by
  obtain ⟨j, hj, hjeq⟩ := List.mem_iff_getElem.mp hmem
  have hjlen : j < t.nodes.length := by
    have := hj
    rw [hnodes, shortNameFold_length, List.length_map] at this
    exact this
  refine ⟨j, hjlen, ?_⟩
  have h0 : pkg.graph_size = (t'.nodes.getD j dfltPackage).graph_size := by
    rw [List.getD_eq_getElem _ _ hj, hjeq]
  rw [h0, hnodes, shortNameFold_invariant Package.graph_size (fun n x => rfl),
    List.getD_eq_getElem _ _ (by simpa using hjlen), List.getElem_map,
    List.getD_eq_getElem _ _ hjlen]
  rfl

/-- C2 (amended): after annotation every node's `graph_size` is
`0.2 + 2.0 * ((size - min)/(max - min)).min(1.0).max(0.0)` and lies in
the closed interval `[0.2, 2.2]`; but when every node has identical
`size_bytes` (`max == min`), the division is `0.0 / 0.0 = NaN`, Rust's
`f32::min(NaN, 1.0)` returns `1.0`, and every node's `graph_size` is
exactly `2.2` — not `0.2` as the specification claims. -/
theorem c2_graph_size_amended (t t' : PackageTree)
    (h : t.calcGraphProperties = some t') :
    (∀ pkg ∈ t'.nodes, ∃ q : ℚ, pkg.graph_size = F32.val q ∧ 1/5 ≤ q ∧ q ≤ 11/5)
    ∧ ((∀ p1 ∈ t.nodes, ∀ p2 ∈ t.nodes, p1.size_bytes = p2.size_bytes) →
        ∀ pkg ∈ t'.nodes, pkg.graph_size = F32.val (11/5)) := by
  obtain ⟨st, hst, hnodes, _⟩ := calc_destruct t t' h
  obtain ⟨hsm, hla, _⟩ := pass1_fields _ _ _ _ hst
  constructor
  · intro pkg hmem
    obtain ⟨j, hj, hgs⟩ := calc_graph_size_at t t' st hst hnodes pkg hmem
    have h1 : st.smallest_size_bytes ≤ (t.nodes.getD j dfltPackage).size_bytes := by
      rw [hsm]
      exact foldl_min_le_mem _ _ _ (node_mem_enum_size t j hj)
    have h2 : (t.nodes.getD j dfltPackage).size_bytes ≤ st.largest_size_bytes := by
      rw [hla]
      exact le_foldl_max_mem _ _ _ (node_mem_enum_size t j hj)
    rw [hgs]
    exact gsizeF32_bounds _ _ _ h1 h2
  · intro hall pkg hmem
    obtain ⟨j, hj, hgs⟩ := calc_graph_size_at t t' st hst hnodes pkg hmem
    have hjmem : t.nodes.getD j dfltPackage ∈ t.nodes := by
      rw [List.getD_eq_getElem _ _ hj]
      exact List.getElem_mem hj
    have hconst : ∀ x ∈ t.nodes.enum.map (fun e => e.2.size_bytes),
        x = (t.nodes.getD j dfltPackage).size_bytes := by
      intro x hx
      rcases List.mem_map.mp hx with ⟨e, he, rfl⟩
      have he2 : e.2 ∈ t.nodes := by
        rw [← List.enum_map_snd t.nodes]
        exact List.mem_map_of_mem _ he
      exact hall e.2 he2 _ hjmem
    have hne : t.nodes.enum.map (fun e => e.2.size_bytes) ≠ [] := by
      apply List.ne_nil_of_length_pos
      simp only [List.length_map, List.enum_length]
      omega
    rw [hgs, hsm, hla, foldl_min_const _ _ _ hne hconst, foldl_max_const _ _ _ hne hconst]
    have hmax0 : Nat.max pass1Init.largest_size_bytes
        ((t.nodes.getD j dfltPackage).size_bytes)
        = (t.nodes.getD j dfltPackage).size_bytes := by
      simp [pass1Init]
    rw [hmax0]
    exact gsizeF32_all_equal _ _ (Nat.min_le_right _ _)

/-- Counterexample to C2 as stated: a concrete two-node graph with
identical `size_bytes` on which annotation yields `graph_size = 2.2`
for every node, not `0.2`. -/
theorem c2_counterexample :
    (∀ p1 ∈ exT2.nodes, ∀ p2 ∈ exT2.nodes, p1.size_bytes = p2.size_bytes)
    ∧ exT2.calcGraphProperties = some exT2Calc
    ∧ (exT2Calc.nodes.getD 0 dfltPackage).graph_size = F32.val (11/5)
    ∧ F32.val ((11:ℚ)/5) ≠ F32.val ((1:ℚ)/5) := by
  refine ⟨?_, rfl, ?_, ?_⟩
  · intro p1 h1 p2 h2
    fin_cases h1 <;> fin_cases h2 <;> rfl
  · show gsizeF32 7 7 7 = F32.val (11/5)
    exact gsizeF32_all_equal 7 7 (le_refl 7)
  · intro hcontra
    have h2 : (11:ℚ)/5 = 1/5 := by injection hcontra
    norm_num at h2

theorem c2_witness :
    (exT2Calc.nodes.getD 0 dfltPackage).graph_size = F32.val (11/5) := by
  have hmem : exT2Calc.nodes.getD 0 dfltPackage ∈ exT2Calc.nodes := by
    have hlen : 0 < exT2Calc.nodes.length := by decide
    rw [List.getD_eq_getElem _ _ hlen]
    exact List.getElem_mem hlen
  exact (c2_graph_size_amended exT2 exT2Calc rfl).2
    (by intro p1 h1 p2 h2; fin_cases h1 <;> fin_cases h2 <;> rfl)
    _ hmem

/-- C8: when three nodes (in arena order) share the same symbolic key
(the path after stripping the fixed-width 44-byte hash prefix), the
first two nodes end with their full path minus the store root as
`short_name`, while the third keeps the bare symbolic key: the
check-and-remove dedup is strictly pairwise and the third collision is
not detected. -/
theorem c8_three_way_collision (n1 n2 n3 : Package) (K : List Char)
    (h1 : symbolicName n1.path = some K) (h2 : symbolicName n2.path = some K)
    (h3 : symbolicName n3.path = some K)
    (hs1 : trimStartList storeRoot n1.path ≠ K)
    (hs2 : trimStartList storeRoot n2.path ≠ K)
    (hs12 : trimStartList storeRoot n1.path ≠ trimStartList storeRoot n2.path)
    (t' : PackageTree)
    (hc : PackageTree.calcGraphProperties { nodes := [n1, n2, n3], by_level := [] }
            = some t') :
    t'.nodes.map Package.short_name
      = [trimStartList storeRoot n1.path, trimStartList storeRoot n2.path, K] := by
  obtain ⟨st, hst, hnodes, _⟩ := calc_destruct _ t' hc
  set s1 := trimStartList storeRoot n1.path with hs1def
  set s2 := trimStartList storeRoot n2.path with hs2def
  have bb1 : (s1 == K) = false := beq_eq_false_iff_ne.mpr hs1
  have bb2 : (s2 == K) = false := beq_eq_false_iff_ne.mpr hs2
  have bb12 : (s1 == s2) = false := beq_eq_false_iff_ne.mpr hs12
  have henum : ([n1, n2, n3] : List Package).enum = [(0, n1), (1, n2), (2, n3)] := rfl
  simp only [henum] at hst
  simp [pass1, pass1Step, h1, h2, h3, gnGet, gnContains, gnInsert, gnRemove,
    bb1, bb2, bb12, hs1, hs2, hs12, List.find?, List.filter] at hst
  subst hst
  rw [hnodes]
  simp only [List.map_cons, List.map_nil, List.foldl_cons, List.foldl_nil, modifyIdx,
    setShortNameFn, List.map]

theorem c8_witness :
    exT3Calc.nodes.map Package.short_name
      = [trimStartList storeRoot exColPath1, trimStartList storeRoot exColPath2,
         "pkg".toList] :=
  c8_three_way_collision (Package.new exSz exColPath1) (Package.new exSz exColPath2)
    (Package.new exSz exColPath3) ("pkg".toList)
    (by decide) (by decide) (by decide) (by decide) (by decide) (by decide)
    exT3Calc rfl

/-- C3 (refuted by the code): for the tree text
`/r`, `└───/a`, `    └───/b`, `        └───/c` — in which the drawn
tree nests `/c` under `/b` — the parser registers `/c` as a dependency
of `/a` (node 1), not of `/b` (node 2): the drain step strips one
character and then *all* remaining leading spaces
(`trim_start_matches(" ")`), collapsing two space-drawn nesting levels,
so the registered parent is not the node one nesting level above in the
drawn tree. -/
theorem c3_space_collapse_bug :
    (parseTree exSz 100 exC3Lines).map
        (fun t => (t.nodes.map Package.path, t.nodes.map Package.used_by))
      = .ok (["/r".toList, "/a".toList, "/b".toList, "/c".toList],
             [[], [0], [1], [1]]) := rfl

theorem registerDependency_selfLoopFree (t : PackageTree) (p c : Nat)
    (hpc : p ≠ c) (h : SelfLoopFree t) : SelfLoopFree (t.registerDependency p c) := by
  intro i hi
  rw [registerDependency_length] at hi
  by_cases hip : i = p
  · subst hip
    rw [registerDependency_deps_self t _ c hi]
    intro hmem
    rcases List.mem_append.mp hmem with hmem | hmem
    · exact h i hi hmem
    · rw [List.mem_singleton] at hmem
      exact hpc hmem
  · rw [registerDependency_deps_ne t p c i hip]
    exact h i hi

theorem addPackage_selfLoopFree (t : PackageTree) (pkg : Package)
    (hdeps : pkg.dependencies = []) (h : SelfLoopFree t) :
    SelfLoopFree (t.addPackage pkg).2 := by
  intro i hi
  simp only [PackageTree.addPackage, List.length_append, List.length_singleton] at hi
  simp only [PackageTree.addPackage]
  by_cases hlt : i < t.nodes.length
  · rw [List.getD_append _ _ _ _ hlt]
    exact h i hlt
  · have hieq : i = t.nodes.length := by omega
    subst hieq
    rw [List.getD_append_right _ _ _ _ (le_refl _), Nat.sub_self]
    simp [hdeps]

theorem processLines_selfLoopFree (sz : List Char → Nat) (fuel : Nat) :
    ∀ (t : PackageTree) (parent : Nat) (lines : List (List Char)) (t' : PackageTree),
      parent < t.nodes.length → SelfLoopFree t →
      processLines sz fuel t parent lines = .ok t' →
      SelfLoopFree t' ∧ t.nodes.length ≤ t'.nodes.length := by
  induction fuel with
  | zero =>
    intro t parent lines t' _ _ h
    cases h
  | succ fuel ih =>
    intro t parent lines t' hp hinv h
    cases lines with
    | nil =>
      injection h with h
      subst h
      exact ⟨hinv, le_refl _⟩
    | cons line rest =>
      simp only [processLines] at h
      cases hm : stripMarker line with
      | none =>
        simp only [hm] at h
        exact Except.noConfusion h
      | some s =>
        simp only [hm] at h
        by_cases hhead : (s.dropWhile (· = '─')).head? = some '/'
        · rw [if_pos hhead] at h
          by_cases hbr : backrefSuffix.isSuffixOf (s.dropWhile (· = '─')) = true
          · rw [if_pos hbr] at h
            cases hfind : PackageTree.findPathPos t
                (trimWS ((s.dropWhile (· = '─')).take
                  ((s.dropWhile (· = '─')).length - 5))) with
            | none =>
              simp only [hfind] at h
              exact Except.noConfusion h
            | some object_pos =>
              simp only [hfind] at h
              by_cases hop : object_pos = parent
              · rw [if_pos hop] at h
                exact ih t parent rest t' hp hinv h
              · rw [if_neg hop] at h
                have hlen : (t.registerDependency parent object_pos).nodes.length
                    = t.nodes.length := registerDependency_length t parent object_pos
                have hinv2 : SelfLoopFree (t.registerDependency parent object_pos) :=
                  registerDependency_selfLoopFree t parent object_pos
                    (fun hcontra => hop hcontra.symm) hinv
                obtain ⟨ha, hb⟩ := ih _ parent rest t' (by omega) hinv2 h
                exact ⟨ha, by omega⟩
          · rw [if_neg hbr] at h
            simp only [PackageTree.addPackage] at h
            split at h
            · cases h
            · rename_i t3 hrec
              have hinv1 : SelfLoopFree ({ t with
                  nodes := t.nodes ++ [Package.new sz (s.dropWhile (· = '─'))] }) :=
                addPackage_selfLoopFree t _ rfl hinv
              have hinv2 : SelfLoopFree (PackageTree.registerDependency
                  { t with nodes := t.nodes ++ [Package.new sz (s.dropWhile (· = '─'))] }
                  parent t.nodes.length) :=
                registerDependency_selfLoopFree _ parent t.nodes.length
                  (by omega) hinv1
              have hlen2 : (PackageTree.registerDependency
                  { t with nodes := t.nodes ++ [Package.new sz (s.dropWhile (· = '─'))] }
                  parent t.nodes.length).nodes.length = t.nodes.length + 1 := by
                rw [registerDependency_length]
                simp
              obtain ⟨ha3, hb3⟩ := ih _ _ _ t3 (by rw [hlen2]; omega) hinv2 hrec
              obtain ⟨ha4, hb4⟩ := ih t3 parent _ t' (by omega) ha3 h
              exact ⟨ha4, by omega⟩
        · rw [if_neg hhead] at h
          cases h

/-- C7: for every graph produced by the parser, no node's
`dependencies` list contains that node's own arena index: a
back-reference resolving to the current parent is skipped, and a fresh
node's position is always distinct from its parent's, so self-loops
never enter the graph. -/
theorem c7_no_self_loops (sz : List Char → Nat) (fuel : Nat)
    (lines : List (List Char)) (t' : PackageTree)
    (h : parseTree sz fuel lines = .ok t') : SelfLoopFree t' := by
  cases lines with
  | nil => cases h
  | cons root rest =>
    simp only [parseTree] at h
    by_cases hr : root.head? = some '/'
    · rw [if_pos hr] at h
      have hinit : SelfLoopFree (PackageTree.mk0 (Package.new sz root)) := by
        intro i hi
        simp only [PackageTree.mk0, List.length_singleton] at hi
        have hieq : i = 0 := by omega
        subst hieq
        simp [PackageTree.mk0, Package.new]
      exact (processLines_selfLoopFree sz fuel _ 0 rest t'
        (by simp [PackageTree.mk0]) hinit h).1
    · rw [if_neg hr] at h
      cases h

theorem c7_witness : parseTree exSz 100 exSimpleLines = .ok exSimpleParsed
    ∧ SelfLoopFree exSimpleParsed :=
  ⟨rfl, c7_no_self_loops exSz 100 exSimpleLines exSimpleParsed rfl⟩

theorem sufOfSufLenLe {s t l : List Char} (hs : s <:+ l) (ht : t <:+ l)
    (h : t.length ≤ s.length) : t <:+ s := by
  rw [← List.reverse_prefix] at hs ht ⊢
  exact List.prefix_of_prefix_length_le ht hs (by simpa using h)

theorem stripNest_suffix (l l' : List Char) (h : stripNest l = some l') :
    l' <:+ l ∧ l'.length < l.length := by
  cases l with
  | nil => cases h
  | cons c rest =>
    simp only [stripNest] at h
    split at h
    · injection h with h
      subst h
      constructor
      · exact (List.dropWhile_suffix _).trans (List.suffix_cons _ _)
      · have hle : (rest.dropWhile (fun x => decide (x = ' '))).length ≤ rest.length :=
          (List.dropWhile_suffix (fun x => decide (x = ' '))).length_le
        simp only [List.length_cons]
        omega
    · cases h

theorem stripMarker_suffix (l s : List Char) (h : stripMarker l = some s) :
    s <:+ l := by
  cases l with
  | nil => cases h
  | cons c rest =>
    simp only [stripMarker] at h
    split at h
    · injection h with h
      subst h
      exact List.suffix_cons _ _
    · cases h

theorem suffix_backref_unparseable (l' : List Char) (h : l' <:+ backrefSuffix) :
    stripMarker l' = none ∧ stripNest l' = none := by
  have hmem : l' ∈ backrefSuffix.tails := (List.mem_tails _ _).mpr h
  fin_cases hmem <;> exact ⟨rfl, rfl⟩

theorem spanNest_decomp (ls : List (List Char)) :
    ∃ orig, ls = orig ++ (spanNest ls).2
      ∧ List.Forall₂ (fun l l' => stripNest l = some l') orig (spanNest ls).1 := by
  induction ls with
  | nil => exact ⟨[], rfl, List.Forall₂.nil⟩
  | cons l ls ih =>
    cases hsn : stripNest l with
    | none =>
      refine ⟨[], ?_, ?_⟩ <;> simp [spanNest, hsn]
    | some l' =>
      obtain ⟨orig, hdecomp, hrel⟩ := ih
      refine ⟨l :: orig, ?_, ?_⟩
      · simp only [spanNest, hsn]
        rw [List.cons_append]
        exact congrArg (l :: ·) hdecomp
      · simp only [spanNest, hsn]
        exact List.Forall₂.cons hsn hrel

theorem forall2_mem_left {R : List Char → List Char → Prop} :
    ∀ {as bs : List (List Char)}, List.Forall₂ R as bs → ∀ x ∈ as, ∃ y ∈ bs, R x y := by
  intro as bs h
  induction h with
  | nil =>
    intro x hx
    cases hx
  | cons hpair hrest ih =>
    intro x hx
    rcases List.mem_cons.mp hx with rfl | hx
    · exact ⟨_, List.mem_cons_self _ _, hpair⟩
    · obtain ⟨y, hy, hr⟩ := ih x hx
      exact ⟨y, List.mem_cons_of_mem _ hy, hr⟩

theorem processLines_lines_shape (sz : List Char → Nat) (fuel : Nat) :
    ∀ (t : PackageTree) (parent : Nat) (lines : List (List Char)) (t' : PackageTree),
      processLines sz fuel t parent lines = .ok t' →
      ∀ l ∈ lines, (stripMarker l).isSome = true ∨ (stripNest l).isSome = true := by
  induction fuel with
  | zero =>
    intro t parent lines t' h
    cases h
  | succ fuel ih =>
    intro t parent lines t' h l hl
    cases lines with
    | nil => cases hl
    | cons line rest =>
      simp only [processLines] at h
      cases hm : stripMarker line with
      | none =>
        simp only [hm] at h
        exact Except.noConfusion h
      | some s =>
        simp only [hm] at h
        rcases List.mem_cons.mp hl with rfl | hmem
        · exact Or.inl (by rw [hm]; rfl)
        by_cases hhead : (s.dropWhile (· = '─')).head? = some '/'
        · rw [if_pos hhead] at h
          by_cases hbr : backrefSuffix.isSuffixOf (s.dropWhile (· = '─')) = true
          · rw [if_pos hbr] at h
            cases hfind : PackageTree.findPathPos t
                (trimWS ((s.dropWhile (· = '─')).take
                  ((s.dropWhile (· = '─')).length - 5))) with
            | none =>
              simp only [hfind] at h
              exact Except.noConfusion h
            | some object_pos =>
              simp only [hfind] at h
              exact ih _ _ _ _ h l hmem
          · rw [if_neg hbr] at h
            split at h
            · exact Except.noConfusion h
            · rename_i t3 hrec
              obtain ⟨orig, hdecomp, hrel⟩ := spanNest_decomp rest
              rw [hdecomp] at hmem
              rcases List.mem_append.mp hmem with hmem | hmem
              · obtain ⟨l', _, hpair⟩ := forall2_mem_left hrel l hmem
                exact Or.inr (by rw [hpair]; rfl)
              · exact ih _ _ _ _ h l hmem
        · rw [if_neg hhead] at h
          exact Except.noConfusion h

theorem line_backref_of_branch (line s : List Char) (hm : stripMarker line = some s)
    (hbr : backrefSuffix.isSuffixOf (s.dropWhile (· = '─')) = true) :
    (!backrefSuffix.isSuffixOf line) = false := by
  have h1 : backrefSuffix <:+ s.dropWhile (· = '─') :=
    List.isSuffixOf_iff_suffix.mp hbr
  have h2 : s.dropWhile (· = '─') <:+ line :=
    (List.dropWhile_suffix _).trans (stripMarker_suffix line s hm)
  have h3 : backrefSuffix <:+ line := h1.trans h2
  rw [List.isSuffixOf_iff_suffix.mpr h3]
  rfl

theorem line_not_backref_of_branch (line s : List Char) (hm : stripMarker line = some s)
    (hhead : (s.dropWhile (· = '─')).head? = some '/')
    (hbr : ¬ backrefSuffix.isSuffixOf (s.dropWhile (· = '─')) = true) :
    (!backrefSuffix.isSuffixOf line) = true := by
  by_contra hcontra
  have hline : backrefSuffix <:+ line := by
    rcases Bool.eq_false_or_eq_true (backrefSuffix.isSuffixOf line) with hb | hb
    · exact List.isSuffixOf_iff_suffix.mp hb
    · rw [hb] at hcontra
      exact absurd rfl hcontra
  have hop : s.dropWhile (· = '─') <:+ line :=
    (List.dropWhile_suffix _).trans (stripMarker_suffix line s hm)
  rcases le_or_lt 5 (s.dropWhile (· = '─')).length with h5 | h5
  · exact hbr (List.isSuffixOf_iff_suffix.mpr
      (sufOfSufLenLe hop hline (by simpa [backrefSuffix] using h5)))
  · have hopbs : s.dropWhile (· = '─') <:+ backrefSuffix :=
      sufOfSufLenLe hline hop (by simp only [backrefSuffix]; simp; omega)
    have hmem : s.dropWhile (· = '─') ∈ backrefSuffix.tails :=
      (List.mem_tails _ _).mpr hopbs
    revert hhead
    generalize s.dropWhile (· = '─') = op at hmem
    fin_cases hmem <;> simp

theorem backref_status_preserved (l l' : List Char) (hsn : stripNest l = some l')
    (hgood : (stripMarker l').isSome = true ∨ (stripNest l').isSome = true) :
    backrefSuffix.isSuffixOf l' = backrefSuffix.isSuffixOf l := by
  obtain ⟨hsuf, _⟩ := stripNest_suffix l l' hsn
  by_cases hb' : backrefSuffix.isSuffixOf l' = true
  · have hb : backrefSuffix <:+ l := (List.isSuffixOf_iff_suffix.mp hb').trans hsuf
    rw [hb', List.isSuffixOf_iff_suffix.mpr hb]
  · by_cases hb : backrefSuffix.isSuffixOf l = true
    · exfalso
      have hbs : backrefSuffix <:+ l := List.isSuffixOf_iff_suffix.mp hb
      rcases le_or_lt 5 l'.length with h5 | h5
      · exact hb' (List.isSuffixOf_iff_suffix.mpr
          (sufOfSufLenLe hsuf hbs (by simp only [backrefSuffix]; simp; omega)))
      · have hl'bs : l' <:+ backrefSuffix :=
          sufOfSufLenLe hbs hsuf (by simp only [backrefSuffix]; simp; omega)
        obtain ⟨hm1, hm2⟩ := suffix_backref_unparseable l' hl'bs
        rcases hgood with hg | hg
        · rw [hm1] at hg
          cases hg
        · rw [hm2] at hg
          cases hg
    · rw [Bool.not_eq_true] at hb hb'
      rw [hb, hb']

theorem countNonBackref_eq_of_pairs (orig a : List (List Char))
    (hrel : List.Forall₂ (fun l l' => stripNest l = some l') orig a)
    (hgood : ∀ l' ∈ a, (stripMarker l').isSome = true ∨ (stripNest l').isSome = true) :
    countNonBackref orig = countNonBackref a := by
  induction hrel with
  | nil => rfl
  | cons hpair hrest ih =>
    rename_i l l' ls ls'
    have hstat := backref_status_preserved l l' hpair (hgood l' (List.mem_cons_self _ _))
    have ihh := ih (fun x hx => hgood x (List.mem_cons_of_mem _ hx))
    simp only [countNonBackref, List.countP_cons] at ihh ⊢
    rw [ihh, hstat]

theorem processLines_count (sz : List Char → Nat) (fuel : Nat) :
    ∀ (t : PackageTree) (parent : Nat) (lines : List (List Char)) (t' : PackageTree),
      processLines sz fuel t parent lines = .ok t' →
      t'.nodes.length = t.nodes.length + countNonBackref lines := by
  induction fuel with
  | zero =>
    intro t parent lines t' h
    cases h
  | succ fuel ih =>
    intro t parent lines t' h
    cases lines with
    | nil =>
      injection h with h
      subst h
      simp [countNonBackref]
    | cons line rest =>
      simp only [processLines] at h
      cases hm : stripMarker line with
      | none =>
        simp only [hm] at h
        exact Except.noConfusion h
      | some s =>
        simp only [hm] at h
        by_cases hhead : (s.dropWhile (· = '─')).head? = some '/'
        · rw [if_pos hhead] at h
          by_cases hbr : backrefSuffix.isSuffixOf (s.dropWhile (· = '─')) = true
          · rw [if_pos hbr] at h
            cases hfind : PackageTree.findPathPos t
                (trimWS ((s.dropWhile (· = '─')).take
                  ((s.dropWhile (· = '─')).length - 5))) with
            | none =>
              simp only [hfind] at h
              exact Except.noConfusion h
            | some object_pos =>
              simp only [hfind] at h
              have hline := line_backref_of_branch line s hm hbr
              have hcount : countNonBackref (line :: rest) = countNonBackref rest := by
                simp [countNonBackref, List.countP_cons, hline]
              rw [hcount]
              by_cases hop : object_pos = parent
              · rw [if_pos hop] at h
                exact ih t parent rest t' h
              · rw [if_neg hop] at h
                have hr := ih _ parent rest t' h
                rw [hr, registerDependency_length]
          · rw [if_neg hbr] at h
            split at h
            · exact Except.noConfusion h
            · rename_i t3 hrec
              have hline := line_not_backref_of_branch line s hm hhead hbr
              obtain ⟨orig, hdecomp, hrel⟩ := spanNest_decomp rest
              have hgood := processLines_lines_shape sz fuel _ _ _ _ hrec
              have heqc : countNonBackref orig = countNonBackref (spanNest rest).1 :=
                countNonBackref_eq_of_pairs orig _ hrel hgood
              have h3 := ih _ _ _ t3 hrec
              have h4 := ih t3 parent _ t' h
              have hlen2 : ((t.addPackage (Package.new sz
                    (s.dropWhile (· = '─')))).2.registerDependency parent
                    (t.addPackage (Package.new sz (s.dropWhile (· = '─')))).1
                  ).nodes.length = t.nodes.length + 1 := by
                rw [registerDependency_length]
                simp [PackageTree.addPackage]
              rw [h4, h3, hlen2]
              have hsplit : countNonBackref rest
                  = countNonBackref orig + countNonBackref (spanNest rest).2 := by
                conv_lhs => rw [hdecomp]
                simp [countNonBackref, List.countP_append]
              have hcount : countNonBackref (line :: rest)
                  = 1 + (countNonBackref orig + countNonBackref (spanNest rest).2) := by
                have h1 : countNonBackref (line :: rest) = countNonBackref rest + 1 := by
                  simp [countNonBackref, List.countP_cons, hline]
                rw [h1, hsplit]
                omega
              rw [hcount, heqc]
              omega
        · rw [if_neg hhead] at h
          exact Except.noConfusion h

/-- C6: for every tree text on which parsing succeeds, the resulting
graph has exactly `K + 1` nodes, where `K` is the number of lines after
the first whose path token does not carry the back-reference suffix
`[...]`; back-reference lines never create a node. -/
theorem c6_node_count (sz : List Char → Nat) (fuel : Nat) (root_line : List Char)
    (rest : List (List Char)) (t' : PackageTree)
    (h : parseTree sz fuel (root_line :: rest) = .ok t') :
    t'.nodes.length = 1 + countNonBackref rest := by
  simp only [parseTree] at h
  by_cases hr : root_line.head? = some '/'
  · rw [if_pos hr] at h
    have hc := processLines_count sz fuel _ 0 rest t' h
    simpa [PackageTree.mk0] using hc
  · rw [if_neg hr] at h
    exact Except.noConfusion h

theorem c6_witness :
    exSimpleParsed.nodes.length
      = 1 + countNonBackref ["├───/a".toList, "│   └───/b".toList, "└───/c".toList] :=
  c6_node_count exSz 100 ("/r".toList)
    ["├───/a".toList, "│   └───/b".toList, "└───/c".toList] exSimpleParsed rfl

theorem findIdx?_go_spec {α : Type _} (p : α → Bool) (d : α) :
    ∀ (l : List α) (i j : Nat), List.findIdx? p l i = some j →
      i ≤ j ∧ j - i < l.length ∧ p (l.getD (j - i) d) = true := by
  intro l
  induction l with
  | nil =>
    intro i j h
    cases h
  | cons x xs ih =>
    intro i j h
    simp only [List.findIdx?] at h
    by_cases hx : p x = true
    · rw [if_pos hx] at h
      injection h with h
      subst h
      exact ⟨le_refl _, by simp, by simpa [Nat.sub_self] using hx⟩
    · rw [if_neg hx] at h
      obtain ⟨h1, h2, h3⟩ := ih (i + 1) j h
      refine ⟨by omega, by simp only [List.length_cons]; omega, ?_⟩
      have hji : j - i = (j - (i + 1)) + 1 := by omega
      rw [hji]
      simpa using h3

theorem findPathPos_spec (t : PackageTree) (path : List Char) (i : Nat)
    (h : t.findPathPos path = some i) :
    i < t.nodes.length ∧ (t.nodes.getD i dfltPackage).path = path := by
  unfold PackageTree.findPathPos at h
  obtain ⟨_, h2, h3⟩ := findIdx?_go_spec _ dfltPackage t.nodes 0 i h
  simp only [Nat.sub_zero] at h2 h3
  exact ⟨h2, of_decide_eq_true h3⟩

theorem forall2_mem_right {R : List Char → List Char → Prop} :
    ∀ {as bs : List (List Char)}, List.Forall₂ R as bs → ∀ y ∈ bs, ∃ x ∈ as, R x y := by
  intro as bs h
  induction h with
  | nil =>
    intro y hy
    cases hy
  | cons hpair hrest ih =>
    intro y hy
    rcases List.mem_cons.mp hy with rfl | hy
    · exact ⟨_, List.mem_cons_self _ _, hpair⟩
    · obtain ⟨x, hx, hr⟩ := ih y hy
      exact ⟨x, List.mem_cons_of_mem _ hx, hr⟩

theorem noRootBackref_tail (rootPath line : List Char) (rest : List (List Char))
    (h : NoRootBackref rootPath (line :: rest)) : NoRootBackref rootPath rest :=
  fun l hl => h l (List.mem_cons_of_mem _ hl)

theorem noRootBackref_span_drained (rootPath : List Char) (rest : List (List Char))
    (h : NoRootBackref rootPath rest) : NoRootBackref rootPath (spanNest rest).1 := by
  intro l' hl' s hs
  obtain ⟨orig, hdecomp, hrel⟩ := spanNest_decomp rest
  obtain ⟨l, hlo, hpair⟩ := forall2_mem_right hrel l' hl'
  have hlmem : l ∈ rest := by
    rw [hdecomp]
    exact List.mem_append_left _ hlo
  have hsufl : s <:+ l :=
    ((List.mem_tails _ _).mp hs).trans (stripNest_suffix l l' hpair).1
  exact h l hlmem s ((List.mem_tails _ _).mpr hsufl)

theorem noRootBackref_span_rest (rootPath : List Char) (rest : List (List Char))
    (h : NoRootBackref rootPath rest) : NoRootBackref rootPath (spanNest rest).2 := by
  intro l hl s hs
  obtain ⟨orig, hdecomp, _⟩ := spanNest_decomp rest
  have hlmem : l ∈ rest := by
    rw [hdecomp]
    exact List.mem_append_right _ hl
  exact h l hlmem s hs

theorem backrefTarget_eval (line s : List Char) (hm : stripMarker line = some s)
    (hhead : (s.dropWhile (· = '─')).head? = some '/')
    (hbr : backrefSuffix.isSuffixOf (s.dropWhile (· = '─')) = true) :
    backrefTarget line
      = some (trimWS ((s.dropWhile (· = '─')).take
          ((s.dropWhile (· = '─')).length - 5))) := by
  simp only [backrefTarget, hm]
  rw [if_pos hhead, if_pos hbr]

theorem processLines_root_level (sz : List Char → Nat) (fuel : Nat)
    (rootPath : List Char) :
    ∀ (t : PackageTree) (parent : Nat) (lines : List (List Char)) (t' : PackageTree),
      0 < t.nodes.length →
      (t.nodes.getD 0 dfltPackage).path = rootPath →
      NoRootBackref rootPath lines →
      processLines sz fuel t parent lines = .ok t' →
      (t'.nodes.getD 0 dfltPackage).level = (t.nodes.getD 0 dfltPackage).level
      ∧ (t'.nodes.getD 0 dfltPackage).path = rootPath
      ∧ 0 < t'.nodes.length := by
  induction fuel with
  | zero =>
    intro t parent lines t' _ _ _ h
    cases h
  | succ fuel ih =>
    intro t parent lines t' hlen hpath hnb h
    cases lines with
    | nil =>
      injection h with h
      subst h
      exact ⟨rfl, hpath, hlen⟩
    | cons line rest =>
      simp only [processLines] at h
      cases hm : stripMarker line with
      | none =>
        simp only [hm] at h
        exact Except.noConfusion h
      | some s =>
        simp only [hm] at h
        by_cases hhead : (s.dropWhile (· = '─')).head? = some '/'
        · rw [if_pos hhead] at h
          by_cases hbr : backrefSuffix.isSuffixOf (s.dropWhile (· = '─')) = true
          · rw [if_pos hbr] at h
            cases hfind : PackageTree.findPathPos t
                (trimWS ((s.dropWhile (· = '─')).take
                  ((s.dropWhile (· = '─')).length - 5))) with
            | none =>
              simp only [hfind] at h
              exact Except.noConfusion h
            | some object_pos =>
              simp only [hfind] at h
              have hop0 : object_pos ≠ 0 := by
                intro hcontra
                subst hcontra
                obtain ⟨_, hfp⟩ := findPathPos_spec t _ _ hfind
                have hne := hnb line (List.mem_cons_self _ _) line
                  ((List.mem_tails _ _).mpr (List.suffix_refl line))
                rw [backrefTarget_eval line s hm hhead hbr] at hne
                rw [hpath] at hfp
                exact hne (by rw [hfp])
              by_cases hop : object_pos = parent
              · rw [if_pos hop] at h
                exact ih t parent rest t' hlen hpath (noRootBackref_tail _ _ _ hnb) h
              · rw [if_neg hop] at h
                have hl0 : ((t.registerDependency parent object_pos).nodes.getD 0
                    dfltPackage).level = (t.nodes.getD 0 dfltPackage).level :=
                  registerDependency_level_ne t parent object_pos 0
                    (fun hc => hop0 hc.symm)
                have hp0 : ((t.registerDependency parent object_pos).nodes.getD 0
                    dfltPackage).path = rootPath := by
                  rw [registerDependency_path]
                  exact hpath
                have hlen0 : 0 < (t.registerDependency parent object_pos).nodes.length := by
                  rw [registerDependency_length]
                  exact hlen
                obtain ⟨ha, hb, hc⟩ := ih _ parent rest t' hlen0 hp0
                  (noRootBackref_tail _ _ _ hnb) h
                exact ⟨by rw [ha, hl0], hb, hc⟩
          · rw [if_neg hbr] at h
            split at h
            · exact Except.noConfusion h
            · rename_i t3 hrec
              simp only [PackageTree.addPackage] at hrec h
              have hgetD1 : (({ t with nodes := t.nodes
                    ++ [Package.new sz (s.dropWhile (· = '─'))] } : PackageTree).nodes.getD 0
                  dfltPackage) = t.nodes.getD 0 dfltPackage := by
                exact List.getD_append _ _ _ _ hlen
              have ht2l : ((PackageTree.registerDependency
                  { t with nodes := t.nodes ++ [Package.new sz (s.dropWhile (· = '─'))] }
                  parent t.nodes.length).nodes.getD 0 dfltPackage).level
                  = (t.nodes.getD 0 dfltPackage).level := by
                rw [registerDependency_level_ne _ _ _ 0 (by omega), hgetD1]
              have ht2p : ((PackageTree.registerDependency
                  { t with nodes := t.nodes ++ [Package.new sz (s.dropWhile (· = '─'))] }
                  parent t.nodes.length).nodes.getD 0 dfltPackage).path = rootPath := by
                rw [registerDependency_path, hgetD1, hpath]
              have ht2len : 0 < (PackageTree.registerDependency
                  { t with nodes := t.nodes ++ [Package.new sz (s.dropWhile (· = '─'))] }
                  parent t.nodes.length).nodes.length := by
                rw [registerDependency_length]
                simp
              obtain ⟨ha3, hb3, hc3⟩ := ih _ _ _ t3 ht2len ht2p
                (noRootBackref_span_drained _ _ (noRootBackref_tail _ _ _ hnb)) hrec
              obtain ⟨ha4, hb4, hc4⟩ := ih t3 parent _ t' hc3 hb3
                (noRootBackref_span_rest _ _ (noRootBackref_tail _ _ _ hnb)) h
              exact ⟨by rw [ha4, ha3, ht2l], hb4, hc4⟩
        · rw [if_neg hhead] at h
          exact Except.noConfusion h

theorem calc_level_at (t t' : PackageTree) (h : t.calcGraphProperties = some t')
    (j : Nat) :
    (t'.nodes.getD j dfltPackage).level = (t.nodes.getD j dfltPackage).level := by
  obtain ⟨st, hst, hnodes, _⟩ := calc_destruct t t' h
  rw [hnodes, shortNameFold_invariant Package.level (fun n x => rfl)]
  by_cases hj : j < t.nodes.length
  · rw [List.getD_eq_getElem _ _ (by simpa using hj), List.getElem_map,
      List.getD_eq_getElem _ _ hj]
    rfl
  · rw [List.getD_eq_default _ _ (by simpa using hj),
      List.getD_eq_default _ _ (by omega)]

/-- C5: for every tree text whose drawn structure never back-references
the root path (which is the case whenever the drawn structure is a DAG
rooted at the first line's path, since the root then has no incoming
edge), the root node at arena position 0 has level 0 after parsing and
still after the annotation pass.  The underlying induction
(`processLines_root_level`) shows the root's level is preserved by
every intermediate construction step. -/
theorem c5_root_level_zero (sz : List Char → Nat) (fuel : Nat)
    (root_line : List Char) (rest : List (List Char)) (t' t'' : PackageTree)
    (hnb : NoRootBackref root_line rest)
    (hparse : parseTree sz fuel (root_line :: rest) = .ok t')
    (hcalc : t'.calcGraphProperties = some t'') :
    (t'.nodes.getD 0 dfltPackage).level = 0
    ∧ (t''.nodes.getD 0 dfltPackage).level = 0 := by
  simp only [parseTree] at hparse
  by_cases hr : root_line.head? = some '/'
  · rw [if_pos hr] at hparse
    obtain ⟨ha, _, _⟩ := processLines_root_level sz fuel root_line _ 0 rest t'
      (by simp [PackageTree.mk0]) (by simp [PackageTree.mk0, Package.new]) hnb hparse
    have hlvl : (t'.nodes.getD 0 dfltPackage).level = 0 := by
      rw [ha]
      simp [PackageTree.mk0, Package.new]
    exact ⟨hlvl, by rw [calc_level_at t' t'' hcalc 0, hlvl]⟩
  · rw [if_neg hr] at hparse
    exact Except.noConfusion hparse

theorem c5_witness :
    (exC5Parsed.nodes.getD 0 dfltPackage).level = 0
    ∧ (exC5Calc.nodes.getD 0 dfltPackage).level = 0 :=
  c5_root_level_zero exSz 100 exStoreRoot ["├───".toList ++ exStoreChild]
    exC5Parsed exC5Calc (by unfold NoRootBackref; decide) rfl rfl

theorem sum_modifyIdx_append (byl : List (List Nat)) (lv x : Nat)
    (h : lv < byl.length) :
    ((modifyIdx byl lv (appendPosFn x)).map List.length).sum
      = (byl.map List.length).sum + 1 := by
  induction byl generalizing lv with
  | nil => simp at h
  | cons b bs ih =>
    cases lv with
    | zero => simp [modifyIdx, appendPosFn]; omega
    | succ n =>
      simp only [modifyIdx, List.map_cons, List.sum_cons]
      rw [ih n (by simpa using h)]
      omega

theorem levelFold_length (pairs : List (Nat × Package)) (byl : List (List Nat)) :
    (pairs.foldl (fun byl e => modifyIdx byl e.2.level (appendPosFn e.1)) byl).length
      = byl.length := by
  induction pairs generalizing byl with
  | nil => rfl
  | cons e rest ih => rw [List.foldl_cons, ih, modifyIdx_length]

theorem levelFold_sum (pairs : List (Nat × Package)) (byl : List (List Nat))
    (h : ∀ e ∈ pairs, e.2.level < byl.length) :
    ((pairs.foldl (fun byl e => modifyIdx byl e.2.level (appendPosFn e.1)) byl).map
        List.length).sum
      = (byl.map List.length).sum + pairs.length := by
  induction pairs generalizing byl with
  | nil => rfl
  | cons e rest ih =>
    rw [List.foldl_cons, ih _ (fun e' he' => by
      rw [modifyIdx_length]
      exact h e' (List.mem_cons_of_mem _ he')),
      sum_modifyIdx_append _ _ _ (h e (List.mem_cons_self _ _))]
    simp only [List.length_cons]
    omega

theorem mem_getD_modifyIdx_append (byl : List (List Nat)) (l x lv pos : Nat)
    (h : pos ∈ (modifyIdx byl l (appendPosFn x)).getD lv []) :
    pos ∈ byl.getD lv [] ∨ pos = x := by
  by_cases hlv : lv = l
  · subst hlv
    by_cases hlen : lv < byl.length
    · rw [getD_modifyIdx_self _ _ _ _ hlen] at h
      simp only [appendPosFn] at h
      rcases List.mem_append.mp h with h | h
      · exact Or.inl h
      · exact Or.inr (List.mem_singleton.mp h)
    · rw [List.getD_eq_default _ _ (by rw [modifyIdx_length]; omega)] at h
      cases h
  · rw [getD_modifyIdx_ne _ _ _ _ _ hlv] at h
    exact Or.inl h

theorem levelFold_mem (pairs : List (Nat × Package)) (byl : List (List Nat))
    (lv pos : Nat)
    (h : pos ∈ (pairs.foldl (fun byl e => modifyIdx byl e.2.level (appendPosFn e.1))
        byl).getD lv []) :
    pos ∈ byl.getD lv [] ∨ ∃ pkg, (pos, pkg) ∈ pairs := by
  induction pairs generalizing byl with
  | nil => exact Or.inl h
  | cons e rest ih =>
    rw [List.foldl_cons] at h
    rcases ih _ h with hin | ⟨pkg, hpkg⟩
    · rcases mem_getD_modifyIdx_append byl e.2.level e.1 lv pos hin with hin | rfl
      · exact Or.inl hin
      · exact Or.inr ⟨e.2, by simp⟩
    · exact Or.inr ⟨pkg, List.mem_cons_of_mem _ hpkg⟩

theorem getD_replicate_nil (n i : Nat) :
    (List.replicate n ([] : List Nat)).getD i [] = [] := by
  by_cases h : i < n
  · rw [List.getD_eq_getElem _ _ (by simpa using h)]
    simp
  · rw [List.getD_eq_default _ _ (by simpa using h)]

/-- C9: the tabular export writes the fixed header line followed by
exactly one row per node (rows grouped by increasing level in
`by_level`-bucket order, by construction of `generatePackageList`), and
the quoted dependency column of each node's row, parsed back as a
comma-separated list of integers, is exactly that node's dependency
index list sorted ascending (`sortNat`, which is sorted and a
permutation by `sortNat_sorted` / `sortNat_perm`). -/
theorem c9_csv_export (t t' : PackageTree) (hb : t.by_level = [])
    (h : t.calcGraphProperties = some t') :
    (generatePackageList t').length = 1 + t'.nodes.length
    ∧ ∀ lv pos, pos ∈ t'.by_level.getD lv [] →
        parseDeps (depsColumn (t'.nodes.getD pos dfltPackage))
          = sortNat ((t.nodes.getD pos dfltPackage).dependencies) := by
  obtain ⟨st, hst, hnodes, hbyl⟩ := calc_destruct t t' h
  obtain ⟨_, _, hll⟩ := pass1_fields _ _ _ _ hst
  have hlen' : t'.nodes.length = t.nodes.length := by
    rw [hnodes, shortNameFold_length, List.length_map]
  have hlvbound : ∀ e ∈ t.nodes.enum,
      e.2.level < (t.by_level ++ List.replicate (st.largest_level + 1) []).length := by
    intro e he
    have hmem : e.2.level ∈ t.nodes.enum.map (fun e => e.2.level) :=
      List.mem_map_of_mem _ he
    have hle := le_foldl_max_mem _ pass1Init.largest_level _ hmem
    rw [← hll] at hle
    simp only [List.length_append, List.length_replicate]
    omega
  constructor
  · simp only [generatePackageList, List.length_cons]
    rw [List.length_flatMap]
    have hinner : (t'.by_level.enum.map (fun e => (e.2.map
        (fun pkg_pos => csvRow pkg_pos e.1 (t'.nodes.getD pkg_pos dfltPackage))).length))
        = t'.by_level.map List.length := by
      simp only [List.length_map]
      rw [show (fun e : Nat × List Nat => e.2.length) = (List.length ∘ Prod.snd) from rfl,
        ← List.map_map, List.enum_map_snd]
    simp only [Function.comp_def]
    rw [hinner, hbyl, levelFold_sum _ _ hlvbound]
    rw [hb]
    simp only [List.nil_append, List.map_replicate, List.length_nil, List.sum_replicate,
      List.enum_length, smul_zero]
    omega
  · intro lv pos hpos
    rw [hbyl] at hpos
    rcases levelFold_mem _ _ _ _ hpos with hin | ⟨pkg, hpkg⟩
    · rw [hb, List.nil_append, getD_replicate_nil] at hin
      cases hin
    · have hsome := List.mk_mem_enum_iff_getElem?.mp hpkg
      have hposlt : pos < t.nodes.length := (List.getElem?_eq_some.mp hsome).1
      have hdeps : (t'.nodes.getD pos dfltPackage).dependencies
          = sortNat ((t.nodes.getD pos dfltPackage).dependencies) := by
        rw [hnodes, shortNameFold_invariant Package.dependencies (fun n x => rfl),
          List.getD_eq_getElem _ _ (by simpa using hposlt), List.getElem_map,
          List.getD_eq_getElem _ _ hposlt]
        rfl
      rw [depsColumn, hdeps, parseDeps_joinComma]

theorem c9_witness :
    (generatePackageList exT3Calc).length = 1 + exT3Calc.nodes.length :=
  (c9_csv_export exT3 exT3Calc rfl rfl).1
